import Mathlib

/-!
Verification development for the quasibox/tcell detached screen engine
(`quasibox/compat.go`, packages `quasibox` and `tcell`).

The input parser (`qScreen.parseRune`, `qScreen.parseFunctionKey`,
`qScreen.parseXtermMouse`, `qScreen.parseSgrMouse`, `qScreen.scanInput`,
`qScreen.inputLoop`, `qScreen.postMouseEvent`, `qScreen.clip`) and the
facade lifecycle operations (`qScreen.Fini`, `qScreen.SetContent`,
`qScreen.Fill`, `qScreen.SetStyle`, `qScreen.ShowCursor`, `qScreen.Show`,
`qScreen.Sync`, `qScreen.PollEvent`) are embedded as executable Lean
functions.  Go byte slices become `List Nat` (each element < 256 at call
sites), Go `int` becomes `Int`, and the external charset decoder
(`golang.org/x/text/transform`, an external collaborator in the spec)
becomes an abstract function from a byte prefix to a transform result.
Go bitwise operations on `int` are two's complement; since every mask the
code reads is below 2^7, they are embedded through the value modulo 2^7
(`landMask`) and single-bit set/clear helpers (`ibit`, `iset`, `iclear`).
-/

/-! ## Modifier masks and basic event model (tcell `ModMask`, `Key`, events) -/

def modNone : Nat := 0

def modShift : Nat := 1

def modCtrl : Nat := 2

def modAlt : Nat := 4

/-- Keys, as far as the embedded code distinguishes them: `KeyRune`,
`KeyEsc`, and the named keys carried by key-code table entries. -/
inductive TKey where
  | keyRune : TKey
  | keyEsc : TKey
  | keyUp : TKey
  | keyDown : TKey
  | keyRight : TKey
  | keyLeft : TKey
  | keyOther : Nat → TKey
deriving DecidableEq, Repr

/-- Mouse buttons used by `postMouseEvent`. -/
inductive MBtn where
  | noBtn : MBtn
  | b1 : MBtn
  | b2 : MBtn
  | b3 : MBtn
  | wheelUp : MBtn
  | wheelDown : MBtn
deriving DecidableEq, Repr

/-- Events posted by the input parser (`NewEventKey` / `NewEventMouse`). -/
inductive Event where
  | key (k : TKey) (r : Nat) (mod : Nat) : Event
  | mouse (x y : Int) (btn : MBtn) (mod : Nat) : Event
deriving DecidableEq, Repr

/-- The mutable parser flags of `qScreen` read or written by the input
path: the ESC latch `escaped`, the wheel debounce `wasbtn`, and the SGR
press latch `buttondn`. -/
structure PState where
  escaped : Bool
  wasbtn : Bool
  buttondn : Bool
deriving DecidableEq, Repr

/-- A key-code table entry value (`tKeyCode`). -/
structure KC where
  key : TKey
  mod : Nat
deriving DecidableEq, Repr

/-- Result of one call to `decoder.Transform(utfb, b[:l], true)`.  The Go
code distinguishes exactly (a) `e == transform.ErrShortSrc` and (b) the
pair `(written output bytes, consumed source bytes)`; any other error with
no output behaves as `res [] nin`. -/
inductive TRes where
  | shortSrc : TRes
  | res (out : List Nat) (nin : Nat) : TRes
deriving DecidableEq, Repr

/-- The screen configuration read by the input path: the key-code table
(`q.keycodes`, embedded as an association list in a fixed iteration
order), whether terminfo advertises mouse support (`q.ti.Mouse != ""`),
the charset decoder, and the current cell-buffer size (`q.cells.Size()`,
used by `clip`). -/
structure Cfg where
  entries : List (List Nat × KC)
  mouse : Bool
  decoder : List Nat → TRes
  w : Int
  h : Int

/-- Result of one matcher call: the `(partial, complete)` pair returned in
Go, plus the bytes it removed from the buffer, the events it posted, and
the updated parser flags.  `more` is the first component of the Go pair. -/
structure MRes where
  more : Bool
  done : Bool
  consumed : Nat
  evs : List Event
  st : PState
deriving DecidableEq, Repr

/-- The `(false, false)` matcher result: no bytes consumed, no events, no
state change. -/
def noMatch (st : PState) : MRes := ⟨false, false, 0, [], st⟩

/-! ## Byte-string helpers -/

/-- `hasPre s p` is Go's `bytes.HasPrefix(s, p)`: `p` is a leading
segment of `s`. -/
def hasPre : List Nat → List Nat → Bool
  | _, [] => true
  | [], _ :: _ => false
  | a :: s, b :: p => a = b && hasPre s p

/-- The Go idiom `mod := m; if q.escaped { mod |= ModAlt; q.escaped =
false }`, shared by `parseRune` and `parseFunctionKey`. -/
def latchMod (st : PState) (m : Nat) : Nat × PState :=
  if st.escaped then (m ||| modAlt, { st with escaped := false }) else (m, st)

/-! ## Go `int` two's-complement bit helpers

Every mask the mouse code reads (`0x43`, `0x04`, `0x08`, `0x10`, `0x20`,
`0x40`, `3`) fits in seven bits, and the two's-complement low seven bits
of an `Int` are `(b % 128).toNat`. -/

/-- Go `b & m` for a mask `m < 2^7` on a (possibly negative) `int`. -/
def landMask (b : Int) (m : Nat) : Nat := (b % 128).toNat &&& m

/-- Two's-complement bit `k` of an integer (`k ≤ 6` at every use). -/
def ibit (b : Int) (k : Nat) : Bool := decide ((2 : Int) ^ k ≤ b % 2 ^ (k + 1))

/-- Go `b |= 2^k` in two's complement. -/
def iset (b : Int) (k : Nat) : Int := if ibit b k then b else b + 2 ^ k

/-- Go `b &^= 2^k` in two's complement. -/
def iclear (b : Int) (k : Nat) : Int := if ibit b k then b - 2 ^ k else b

/-! ## `qScreen.clip` and `qScreen.postMouseEvent` -/

/-- `qScreen.clip`: clamp mouse coordinates to the cell-buffer size. -/
def clip (c : Cfg) (x y : Int) : Int × Int :=
  let x1 := if x < 0 then 0 else x
  let y1 := if y < 0 then 0 else y
  let x2 := if x1 > c.w - 1 then c.w - 1 else x1
  let y2 := if y1 > c.h - 1 then c.h - 1 else y1
  (x2, y2)

/-- `qScreen.postMouseEvent`: decode the raw button, update the wheel
debounce flag `wasbtn`, compute modifiers, clip coordinates, and build
the mouse event that is posted. -/
def postMouseEvent (c : Cfg) (st : PState) (x y btn : Int) : Event × PState :=
  let m43 := landMask btn 0x43
  let bw : MBtn × Bool :=
    if m43 = 0 then (MBtn.b1, true)
    else if m43 = 1 then (MBtn.b2, true)
    else if m43 = 2 then (MBtn.b3, true)
    else if m43 = 3 then (MBtn.noBtn, false)
    else if m43 = 0x40 then (if !st.wasbtn then MBtn.wheelUp else MBtn.b1, st.wasbtn)
    else if m43 = 0x41 then (if !st.wasbtn then MBtn.wheelDown else MBtn.b2, st.wasbtn)
    else (MBtn.noBtn, st.wasbtn)
  let mod1 := if landMask btn 0x4 ≠ 0 then modNone ||| modShift else modNone
  let mod2 := if landMask btn 0x8 ≠ 0 then mod1 ||| modAlt else mod1
  let mod3 := if landMask btn 0x10 ≠ 0 then mod2 ||| modCtrl else mod2
  let xy := clip c x y
  (Event.mouse xy.1 xy.2 bw.1 mod3, { st with wasbtn := bw.2 })

/-! ## `utf8.DecodeRune` (first rune of a byte slice, Go stdlib) -/

/-- Go `utf8.DecodeRune` restricted to the rune value it returns; invalid
or incomplete encodings give `RuneError = 0xFFFD`.  Acceptance ranges for
the second byte follow Go's `acceptRanges` table (`E0`, `ED`, `F0`, `F4`
special-cased). -/
def utf8DecodeRune (p : List Nat) : Nat :=
  match p with
  | [] => 0xFFFD
  | b0 :: t =>
    if b0 < 0x80 then b0
    else if b0 < 0xC2 ∨ b0 > 0xF4 then 0xFFFD
    else if b0 ≤ 0xDF then
      match t with
      | b1 :: _ =>
        if 0x80 ≤ b1 ∧ b1 ≤ 0xBF then (b0 % 0x20) * 0x40 + b1 % 0x40 else 0xFFFD
      | [] => 0xFFFD
    else if b0 ≤ 0xEF then
      match t with
      | b1 :: b2 :: _ =>
        let lo := if b0 = 0xE0 then 0xA0 else 0x80
        let hi := if b0 = 0xED then 0x9F else 0xBF
        if lo ≤ b1 ∧ b1 ≤ hi ∧ 0x80 ≤ b2 ∧ b2 ≤ 0xBF then
          (b0 % 0x10) * 0x1000 + (b1 % 0x40) * 0x40 + b2 % 0x40
        else 0xFFFD
      | _ => 0xFFFD
    else
      match t with
      | b1 :: b2 :: b3 :: _ =>
        let lo := if b0 = 0xF0 then 0x90 else 0x80
        let hi := if b0 = 0xF4 then 0x8F else 0xBF
        if lo ≤ b1 ∧ b1 ≤ hi ∧ 0x80 ≤ b2 ∧ b2 ≤ 0xBF ∧ 0x80 ≤ b3 ∧ b3 ≤ 0xBF then
          (b0 % 8) * 0x40000 + (b1 % 0x40) * 0x1000 + (b2 % 0x40) * 0x40 + b3 % 0x40
        else 0xFFFD
      | _ => 0xFFFD

/-! ## `qScreen.parseRune` -/

/-- The decode loop of `parseRune` for a lead byte `≥ 0x80`: try prefixes
`b[:l]` for `l = 1 .. len(b)`; `ErrShortSrc` and empty output continue
with a longer prefix; nonzero output consumes `nin` bytes and completes,
emitting an event only when the output decodes to a rune other than
`utf8.RuneError`. -/
def runeScan (c : Cfg) (st : PState) (b : List Nat) (l : Nat) : MRes :=
  if b.length < l then ⟨true, false, 0, [], st⟩
  else
    match c.decoder (b.take l) with
    | TRes.shortSrc => runeScan c st b (l + 1)
    | TRes.res out nin =>
      if out.length ≠ 0 then
        let r := utf8DecodeRune out
        if r ≠ 0xFFFD then
          let ms := latchMod st modNone
          ⟨true, true, nin, [Event.key TKey.keyRune r ms.1], ms.2⟩
        else ⟨true, true, nin, [], st⟩
      else runeScan c st b (l + 1)
termination_by b.length + 1 - l

/-- `qScreen.parseRune`: printable ASCII `0x20..0x7F` completes at once;
other bytes below `0x80` are not runes; bytes `≥ 0x80` go through the
charset decode loop. -/
def parseRune (c : Cfg) (st : PState) (b : List Nat) : MRes :=
  match b with
  | [] => noMatch st
  | b0 :: _ =>
    if 0x20 ≤ b0 ∧ b0 ≤ 0x7F then
      let ms := latchMod st modNone
      ⟨true, true, 1, [Event.key TKey.keyRune b0 ms.1], ms.2⟩
    else if b0 < 0x80 then noMatch st
    else runeScan c st b 1

/-! ## `qScreen.parseFunctionKey` -/

/-- Is this table entry the single-byte `0x1B` entry that
`parseFunctionKey` skips? -/
def skipEsc (e : List Nat) : Bool := e.length = 1 && e.headD 0 = 0x1B

/-- The entry-iteration loop of `parseFunctionKey`, with the running
`partial` flag `acc`. -/
def fkLoop (st : PState) (b : List Nat) : List (List Nat × KC) → Bool → MRes
  | [], acc => ⟨acc, false, 0, [], st⟩
  | (esc, k) :: rest, acc =>
    if skipEsc esc then fkLoop st b rest acc
    else if hasPre b esc then
      let r := if esc.length = 1 then b.headD 0 else 0
      let ms := latchMod st k.mod
      ⟨true, true, esc.length, [Event.key k.key r ms.1], ms.2⟩
    else if hasPre esc b then fkLoop st b rest true
    else fkLoop st b rest acc

/-- `qScreen.parseFunctionKey`: first exact table-entry prefix of the
buffer wins; a buffer that is a leading segment of some entry makes the
result partial. -/
def parseFunctionKey (c : Cfg) (st : PState) (b : List Nat) : MRes :=
  fkLoop st b c.entries false

/-! ## `qScreen.parseXtermMouse` -/

/-- The byte-machine of `parseXtermMouse` (`ESC [ M btn x y`, with `0x9B`
accepted for `ESC [`); `pos` counts bytes examined so far. -/
def xtermRun (c : Cfg) (pst : PState) :
    List Nat → Nat → Int → Int → Nat → MRes
  | [], _, _, _, _ => ⟨true, false, 0, [], pst⟩
  | b :: rest, state, btn, x, pos =>
    if state = 0 then
      if b = 0x1B then xtermRun c pst rest 1 btn x (pos + 1)
      else if b = 0x9B then xtermRun c pst rest 2 btn x (pos + 1)
      else noMatch pst
    else if state = 1 then
      if b ≠ 0x5B then noMatch pst else xtermRun c pst rest 2 btn x (pos + 1)
    else if state = 2 then
      if b ≠ 0x4D then noMatch pst else xtermRun c pst rest 3 btn x (pos + 1)
    else if state = 3 then
      xtermRun c pst rest 4 (b : Int) x (pos + 1)
    else if state = 4 then
      xtermRun c pst rest 5 btn ((b : Int) - 32 - 1) (pos + 1)
    else
      let y : Int := (b : Int) - 32 - 1
      let ep := postMouseEvent c pst x y btn
      ⟨true, true, pos + 1, [ep.1], ep.2⟩

/-- `qScreen.parseXtermMouse`. -/
def parseXtermMouse (c : Cfg) (pst : PState) (b : List Nat) : MRes :=
  xtermRun c pst b 0 0 0 0

/-! ## `qScreen.parseSgrMouse` -/

/-- The accumulator state of the SGR machine: protocol state 0-5, digit
and minus flags, the value being accumulated, and the committed `btn`,
`x` fields. -/
structure SgrAcc where
  state : Nat
  dig : Bool
  neg : Bool
  val : Int
  btn : Int
  x : Int
deriving Repr

/-- The byte-machine of `parseSgrMouse` (`ESC [ < btn ; x ; y (M|m)`).
Bytes matching no case of the Go `switch` are skipped without changing
state.  On the terminator, a release (`m`) forces "no buttons" and clears
the wheel bit; a motion report while no press is latched is rewritten the
same way; a non-motion press latches `buttondn`. -/
def sgrRun (c : Cfg) (pst : PState) : List Nat → SgrAcc → Nat → MRes
  | [], _, _ => ⟨true, false, 0, [], pst⟩
  | b :: rest, s, pos =>
    if b = 0x1B then
      if s.state ≠ 0 then noMatch pst
      else sgrRun c pst rest { s with state := 1 } (pos + 1)
    else if b = 0x9B then
      if s.state ≠ 0 then noMatch pst
      else sgrRun c pst rest { s with state := 2 } (pos + 1)
    else if b = 0x5B then
      if s.state ≠ 1 then noMatch pst
      else sgrRun c pst rest { s with state := 2 } (pos + 1)
    else if b = 0x3C then
      if s.state ≠ 2 then noMatch pst
      else sgrRun c pst rest { s with state := 3, val := 0, dig := false, neg := false } (pos + 1)
    else if b = 0x2D then
      if s.state ≠ 3 ∧ s.state ≠ 4 ∧ s.state ≠ 5 then noMatch pst
      else if s.dig ∨ s.neg then noMatch pst
      else sgrRun c pst rest { s with neg := true } (pos + 1)
    else if 0x30 ≤ b ∧ b ≤ 0x39 then
      if s.state ≠ 3 ∧ s.state ≠ 4 ∧ s.state ≠ 5 then noMatch pst
      else sgrRun c pst rest
        { s with val := s.val * 10 + ((b : Int) - 0x30), dig := true } (pos + 1)
    else if b = 0x3B then
      let v := if s.neg then -s.val else s.val
      if s.state = 3 then
        sgrRun c pst rest
          { s with btn := v, val := 0, neg := false, dig := false, state := 4 } (pos + 1)
      else if s.state = 4 then
        sgrRun c pst rest
          { s with x := v - 1, val := 0, neg := false, dig := false, state := 5 } (pos + 1)
      else noMatch pst
    else if b = 0x6D ∨ b = 0x4D then
      if s.state ≠ 5 then noMatch pst
      else
        let v := if s.neg then -s.val else s.val
        let y := v - 1
        let motion := ibit s.btn 5
        let btn1 := iclear s.btn 5
        let bp : Int × PState :=
          if b = 0x6D then (iclear (iset (iset btn1 0) 1) 6, { pst with buttondn := false })
          else if motion then
            (if !pst.buttondn then iclear (iset (iset btn1 0) 1) 6 else btn1, pst)
          else (btn1, { pst with buttondn := true })
        let ep := postMouseEvent c bp.2 s.x y bp.1
        ⟨true, true, pos + 1, [ep.1], ep.2⟩
    else sgrRun c pst rest s (pos + 1)

/-- `qScreen.parseSgrMouse`. -/
def parseSgrMouse (c : Cfg) (pst : PState) (b : List Nat) : MRes :=
  sgrRun c pst b ⟨0, false, false, 0, 0, 0⟩ 0

/-! ## `qScreen.scanInput` and `qScreen.inputLoop` -/

/-- What one pass of the `scanInput` loop body does: emit events and
consume bytes, or break to wait for more input (also the case of an empty
buffer, where `scanInput` returns). -/
inductive StepRes where
  | emit (evs : List Event) (consumed : Nat) (st : PState) : StepRes
  | wait : StepRes
deriving DecidableEq, Repr

/-- The xterm-mouse matcher as `scanInput` sees it: skipped (returning
`(false, false)`) when terminfo does not advertise mouse support. -/
def mouseXt (c : Cfg) (st : PState) (buf : List Nat) : MRes :=
  if c.mouse then parseXtermMouse c st buf else noMatch st

/-- The SGR-mouse matcher as `scanInput` sees it, like `mouseXt`. -/
def mouseSgr (c : Cfg) (st : PState) (buf : List Nat) : MRes :=
  if c.mouse then parseSgrMouse c st buf else noMatch st

/-- The `partials` counter of one `scanInput` iteration. -/
def pcount (c : Cfg) (st : PState) (buf : List Nat) : Nat :=
  (if (parseRune c st buf).more then 1 else 0) +
    (if (parseFunctionKey c st buf).more then 1 else 0) +
    (if (mouseXt c st buf).more then 1 else 0) +
    (if (mouseSgr c st buf).more then 1 else 0)

/-- One iteration of the `scanInput` loop: run the four matchers in
order (mouse matchers only when terminfo advertises mouse support); a
completion emits immediately; otherwise, with no partial match or with
`expire`, handle a leading ESC (lone ESC emits `KeyEsc`, ESC with a tail
sets the `escaped` latch) or deliver the head byte as a raw rune. -/
def scanStep (c : Cfg) (st : PState) (buf : List Nat) (expire : Bool) : StepRes :=
  match buf with
  | [] => StepRes.wait
  | b0 :: rest =>
    let r1 := parseRune c st (b0 :: rest)
    if r1.done then StepRes.emit r1.evs r1.consumed r1.st
    else
      let r2 := parseFunctionKey c st (b0 :: rest)
      if r2.done then StepRes.emit r2.evs r2.consumed r2.st
      else
        let r3 := mouseXt c st (b0 :: rest)
        if r3.done then StepRes.emit r3.evs r3.consumed r3.st
        else
          let r4 := mouseSgr c st (b0 :: rest)
          if r4.done then StepRes.emit r4.evs r4.consumed r4.st
          else
            if pcount c st (b0 :: rest) = 0 ∨ expire then
              if b0 = 0x1B then
                if rest = [] then
                  StepRes.emit [Event.key TKey.keyEsc 0 modNone] 1 { st with escaped := false }
                else StepRes.emit [] 1 { st with escaped := true }
              else
                let m := if st.escaped then modAlt else modNone
                StepRes.emit [Event.key TKey.keyRune b0 m] 1 { st with escaped := false }
            else StepRes.wait

/-- The `scanInput` loop, with explicit fuel bounding the number of
iterations (each emitting iteration consumes at least one byte for every
well-formed configuration, so `buf.length + 1` fuel is enough). -/
def scanLoop (c : Cfg) : Nat → PState → List Nat → Bool → List Event × List Nat × PState
  | 0, st, buf, _ => ([], buf, st)
  | fuel + 1, st, buf, expire =>
    match scanStep c st buf expire with
    | StepRes.emit evs n st2 =>
      let r := scanLoop c fuel st2 (buf.drop n) expire
      (evs ++ r.1, r.2.1, r.2.2)
    | StepRes.wait => ([], buf, st)

/-- `qScreen.scanInput`: events posted, bytes left in the buffer, and the
updated parser flags. -/
def scanInput (c : Cfg) (st : PState) (buf : List Nat) (expire : Bool) :
    List Event × List Nat × PState :=
  scanLoop c (buf.length + 1) st buf expire

/-- The read loop of `qScreen.inputLoop`, restricted to what it does with
delivered data: append each read chunk to the accumulating buffer and
scan without expiration. -/
def feedChunks (c : Cfg) : PState → List Nat → List (List Nat) →
    List Event × List Nat × PState
  | st, buf, [] => ([], buf, st)
  | st, buf, chunk :: rest =>
    let r := scanInput c st (buf ++ chunk) false
    let r2 := feedChunks c r.2.2 r.2.1 rest
    (r.1 ++ r2.1, r2.2.1, r2.2.2)

/-- Delivering a list of chunks and then firing expiration (the `io.EOF`
branch of `inputLoop`, which flushes a non-empty buffer with
`scanInput(buf, true)`): the full event stream produced. -/
def deliver (c : Cfg) (st : PState) (chunks : List (List Nat)) : List Event :=
  let r := feedChunks c st [] chunks
  r.1 ++ (if r.2.1 = [] then [] else (scanInput c r.2.2 r.2.1 true).1)

/-! ## Facade state and lifecycle (`qScreen.Fini` and friends) -/

/-- Modelled from the spec: the CellBuffer component (§3, §4.1) lives in
the repository outside `src/`; the facade claims only need a grid that
records its size and per-cell `(rune, style)` content, so combining
runes, widths and dirty bits are folded into the cell payload type. -/
structure CBuf where
  w : Int
  h : Int
  cells : List (Nat × Int)
deriving DecidableEq, Repr

/-- Modelled from the spec: `CellBuffer.Resize` reallocates to the new
size; surviving content is irrelevant to the claims settled here. -/
def cbResize (_cb : CBuf) (w h : Int) : CBuf :=
  ⟨w, h, List.replicate ((w.toNat) * (h.toNat)) (0x20, 0)⟩

/-- Modelled from the spec: `CellBuffer.SetContent` overwrites the cell
at `(x, y)` when in bounds. -/
def cbSetContent (cb : CBuf) (x y : Int) (mainc : Nat) (style : Int) : CBuf :=
  if 0 ≤ x ∧ x < cb.w ∧ 0 ≤ y ∧ y < cb.h then
    { cb with cells := cb.cells.set (y * cb.w + x).toNat (mainc, style) }
  else cb

/-- Modelled from the spec: `CellBuffer.Fill` overwrites every cell. -/
def cbFill (cb : CBuf) (mainc : Nat) (style : Int) : CBuf :=
  { cb with cells := cb.cells.map (fun _ => (mainc, style)) }

/-- The facade state of `qScreen` touched by the lifecycle claims:
the `fini` flag, the cell buffer, the default style, the logical cursor
(`cursorx`, `cursory`), the tracked output cursor (`cx`, `cy`), the
stored size, the `clear` flag, the current emitted style id, and whether
the quit channel is still `nil` (`Init` not run). -/
structure QState where
  fini : Bool
  cells : CBuf
  style : Int
  curstyle : Int
  cursorx : Int
  cursory : Int
  cx : Int
  cy : Int
  w : Int
  h : Int
  clear : Bool
  quitNil : Bool
deriving DecidableEq, Repr

/-- Terminfo capabilities emitted by `Fini`. -/
inductive Cap where
  | showCursor : Cap
  | attrOff : Cap
  | clearScr : Cap
  | exitCA : Cap
  | exitKeypad : Cap
  | mouseModeOff : Cap
deriving DecidableEq, Repr

/-- Externally visible actions of `Fini`, in the order performed. -/
inductive FAct where
  | resizeCells (w h : Int) : FAct
  | puts (cap : Cap) : FAct
  | closeQuit : FAct
  | closeOut : FAct
  | closeIn : FAct
deriving DecidableEq, Repr

/-- `qScreen.Fini`: resize the cell buffer to zero, emit the teardown
capabilities, poison `curstyle`, drop `clear`, set `fini`; then close the
quit channel (if `Init` created it), then close the output stream, then
the input stream. -/
def Fini (q : QState) : QState × List FAct :=
  ({ q with cells := cbResize q.cells 0 0, curstyle := -1, clear := false, fini := true },
    [FAct.resizeCells 0 0, FAct.puts Cap.showCursor, FAct.puts Cap.attrOff,
      FAct.puts Cap.clearScr, FAct.puts Cap.exitCA, FAct.puts Cap.exitKeypad,
      FAct.puts Cap.mouseModeOff] ++
    (if q.quitNil then [] else [FAct.closeQuit]) ++ [FAct.closeOut, FAct.closeIn])

/-- `qScreen.SetContent`: delegate to the cell buffer unless `fini`. -/
def SetContent (q : QState) (x y : Int) (mainc : Nat) (style : Int) : QState :=
  if q.fini then q else { q with cells := cbSetContent q.cells x y mainc style }

/-- `qScreen.Fill`: fill the cell buffer unless `fini`. -/
def Fill (q : QState) (mainc : Nat) (style : Int) : QState :=
  if q.fini then q else { q with cells := cbFill q.cells mainc style }

/-- `qScreen.SetStyle`: store the default style unless `fini`. -/
def SetStyle (q : QState) (style : Int) : QState :=
  if q.fini then q else { q with style := style }

/-- `qScreen.ShowCursor`: store the logical cursor position.  The source
has no `fini` guard here. -/
def ShowCursor (q : QState) (x y : Int) : QState :=
  { q with cursorx := x, cursory := y }

/-- `qScreen.Show`: under the lock, resize-reconcile and draw unless
`fini`.  The renderer body (`q.resize(); q.draw()`) is abstracted as the
function argument `draw`; the claims settled here only exercise the
guard. -/
def Show (draw : QState → QState × List FAct) (q : QState) : QState × List FAct :=
  if q.fini then (q, []) else draw q

/-- `qScreen.Sync`: reset the tracked cursor unconditionally, then (unless
`fini`) resize-reconcile, set `clear`, invalidate and draw — abstracted
as `draw` like in `Show`. -/
def Sync (draw : QState → QState × List FAct) (q : QState) : QState × List FAct :=
  let q1 := { q with cx := -1, cy := -1 }
  if q1.fini then (q1, []) else draw q1

/-- `qScreen.PollEvent` is a Go `select` over the closed-quit case and
the event channel; this relation holds for each result the select may
produce: `none` (the nil sentinel) when the quit channel is closed, or
the first queued event when one is buffered. -/
def pollPossible (quitClosed : Bool) (queue : List Event) (r : Option Event) : Prop :=
  (quitClosed = true ∧ r = none) ∨ (∃ e rest, queue = e :: rest ∧ r = some e)

/-! ## Event projections and iterated mouse reports -/

/-- The coordinates, button and modifiers carried by a mouse event
(placeholders for key events, which the mouse claims never produce). -/
def evX : Event → Int
  | Event.mouse x _ _ _ => x
  | Event.key _ _ _ => 0

def evY : Event → Int
  | Event.mouse _ y _ _ => y
  | Event.key _ _ _ => 0

def evBtn : Event → MBtn
  | Event.mouse _ _ b _ => b
  | Event.key _ _ _ => MBtn.noBtn

/-- Feeding a list of raw `(x, y, btn)` mouse reports through
`postMouseEvent` in order, threading the parser flags. -/
def postMouseRun (c : Cfg) (st : PState) : List (Int × Int × Int) → List Event × PState
  | [] => ([], st)
  | r :: rs =>
    let ep := postMouseEvent c st r.1 r.2.1 r.2.2
    let t := postMouseRun c ep.2 rs
    (ep.1 :: t.1, t.2)

/-! ## Concrete instances for witnesses and counterexamples -/

/-- A small xterm-like key-code table: cursor Up, Down (CSI) and Right
(SS3). -/
def entW : List (List Nat × KC) :=
  [([0x1B, 0x5B, 0x41], ⟨TKey.keyUp, modNone⟩),
    ([0x1B, 0x5B, 0x42], ⟨TKey.keyDown, modNone⟩),
    ([0x1B, 0x4F, 0x43], ⟨TKey.keyRight, modNone⟩)]

/-- A single-byte charset decoder: the first byte decodes to the Unicode
scalar of the same value (emitted as two UTF-8 bytes), consuming one. -/
def decW : List Nat → TRes
  | [] => TRes.res [] 0
  | b0 :: _ => TRes.res [0xC0 + b0 / 0x40, 0x80 + b0 % 0x40] 1

/-- The witness configuration: the table above, mouse support on, an
80×24 cell buffer. -/
def cfgW : Cfg := ⟨entW, true, decW, 80, 24⟩

/-- Clean initial parser flags. -/
def pst0 : PState := ⟨false, false, false⟩

/-- A key-code table holding only the single-byte ESC entry, as
`prepareKeys` builds when terminfo defines no escape sequences. -/
def cfg3 : Cfg := ⟨[([0x1B], ⟨TKey.keyEsc, modNone⟩)], false, decW, 80, 24⟩

/-- A decoder that replaces any input with U+FFFD (`utf8.RuneError`),
consuming one byte — the replacement behaviour of `golang.org/x/text`
decoders on undecodable input. -/
def dec7 : List Nat → TRes := fun _ => TRes.res [0xEF, 0xBF, 0xBD] 1

def cfg7 : Cfg := ⟨[], false, dec7, 80, 24⟩

/-- A decoder needing two bytes: short source on one byte, then U+00E9. -/
def dec7b : List Nat → TRes := fun p =>
  if p.length ≤ 1 then TRes.shortSrc else TRes.res [0xC3, 0xA9] 2

def cfg7b : Cfg := ⟨[], false, dec7b, 80, 24⟩

/-- An initialized facade state (cursor parked, quit channel live). -/
def qInit : QState :=
  ⟨false, ⟨80, 24, []⟩, 0, 0, -1, -1, -1, -1, 80, 24, false, false⟩

/-- The facade state after `Fini`. -/
def qFini : QState :=
  ⟨true, ⟨0, 0, []⟩, 0, -1, -1, -1, -1, -1, 80, 24, false, false⟩

/-! ## Well-formedness of a configuration

The split-invariance claim is about the parser as configured by
`prepareKeys` from a terminfo description.  These predicates record the
properties such configurations have and on which the proof rests:
key-code entries are nonempty (`prepareKeyMod` refuses empty strings) and
prefix-free; entries begin below `0x80` (terminfo sequences start with
ESC or a control byte); a lone ESC always leaves some matcher partial
(ESC-prefixed entries exist or mouse is on); no proper prefix of an entry
is already a complete mouse record; and the charset decoder consumes at
least one byte when it produces output, never overconsumes, and decides
every input of four or more bytes that starts at or above `0x80`. -/

structure DecoderWF (d : List Nat → TRes) : Prop where
  progress : ∀ p out nin, d p = TRes.res out nin → out ≠ [] → 1 ≤ nin ∧ nin ≤ p.length
  decided4 : ∀ p, 0x80 ≤ p.headD 0 → 4 ≤ p.length →
    ∃ out nin, d p = TRes.res out nin ∧ out ≠ []

structure CfgWF (c : Cfg) : Prop where
  entriesNE : ∀ e ∈ c.entries, e.1 ≠ []
  pfree : ∀ e1 ∈ c.entries, ∀ e2 ∈ c.entries, e1.1 <+: e2.1 → e1.1 = e2.1
  heads : ∀ e ∈ c.entries, e.1.headD 0 < 0x80
  escGuard : c.mouse = true ∨ ∃ e ∈ c.entries, e.1.headD 0 = 0x1B ∧ 2 ≤ e.1.length
  dec : DecoderWF c.decoder
  mouseFree : c.mouse = true → ∀ e ∈ c.entries, ∀ b, b <+: e.1 → b ≠ e.1 →
    (parseXtermMouse c ⟨false, false, false⟩ b).done = false ∧
    (parseSgrMouse c ⟨false, false, false⟩ b).done = false

/-! ## Helper lemmas: byte-string prefixes -/

theorem hasPre_iff : ∀ (s p : List Nat), hasPre s p = true ↔ p <+: s
  | _, [] => by simp [hasPre]
  | [], _ :: _ => by simp [hasPre]
  | a :: s, b :: p => by
    simp only [hasPre, Bool.and_eq_true, decide_eq_true_eq, hasPre_iff s p,
      List.cons_prefix_cons]
    exact and_congr_left (fun _ => eq_comm)

theorem hasPre_of_append {s p ext : List Nat} (h : hasPre s p = true) :
    hasPre (s ++ ext) p = true := by
  rw [hasPre_iff] at h ⊢
  exact h.trans (List.prefix_append s ext)

theorem hasPre_append_cases {b p ext : List Nat} (h : hasPre (b ++ ext) p = true) :
    hasPre b p = true ∨ hasPre p b = true := by
  rw [hasPre_iff] at h
  rw [hasPre_iff, hasPre_iff]
  rcases le_or_lt p.length b.length with hl | hl
  · exact Or.inl (List.prefix_of_prefix_length_le h (List.prefix_append b ext) hl)
  · exact Or.inr (List.prefix_of_prefix_length_le (List.prefix_append b ext) h hl.le)

theorem hasPre_headD {s p : List Nat} (h : hasPre s p = true) (hp : p ≠ []) :
    s.headD 0 = p.headD 0 := by
  cases p with
  | nil => exact absurd rfl hp
  | cons a p =>
    cases s with
    | nil => simp [hasPre] at h
    | cons b s =>
      simp only [hasPre, Bool.and_eq_true, decide_eq_true_eq] at h
      simp [h.1]

theorem hasPre_length {s p : List Nat} (h : hasPre s p = true) : p.length ≤ s.length :=
  ((hasPre_iff s p).mp h).length_le

theorem hasPre_ne_nil {s p : List Nat} (h : hasPre s p = true) (hp : p ≠ []) : s ≠ [] := by
  cases p with
  | nil => exact absurd rfl hp
  | cons a p => cases s with
    | nil => simp [hasPre] at h
    | cons b s => simp

/-! ## Helper lemmas: the rune decode loop -/

theorem runeScan_more (c : Cfg) (st : PState) (b : List Nat) (l : Nat) :
    (runeScan c st b l).more = true := by
  induction l using runeScan.induct c st b with
  | case1 l hl => rw [runeScan]; simp [hl]
  | case2 l hl hdec ih => rw [runeScan]; simp only [if_neg hl, hdec]; exact ih
  | case3 l hl out nin hdec hout r hr => rw [runeScan]; simp [hl, hdec, hout, hr]
  | case4 l hl out nin hdec hout r hr => rw [runeScan]; simp [hl, hdec, hout, hr]
  | case5 l hl out nin hdec hout ih => rw [runeScan]; simp only [if_neg hl, hdec]; simpa [hout] using ih

theorem headD_take {b : List Nat} {l : Nat} (hl : 1 ≤ l) :
    (b.take l).headD 0 = b.headD 0 := by
  cases b with
  | nil => simp
  | cons a t => cases l with
    | zero => omega
    | succ n => simp [List.take]

theorem runeScan_eq_stop {c : Cfg} {st : PState} {b : List Nat} {l : Nat}
    (hl : b.length < l) : runeScan c st b l = ⟨true, false, 0, [], st⟩ := by
  rw [runeScan]; simp [hl]

theorem runeScan_eq_short {c : Cfg} {st : PState} {b : List Nat} {l : Nat}
    (hl : ¬b.length < l) (hd : c.decoder (b.take l) = TRes.shortSrc) :
    runeScan c st b l = runeScan c st b (l + 1) := by
  rw [runeScan]; simp only [if_neg hl, hd]

theorem runeScan_eq_nil {c : Cfg} {st : PState} {b : List Nat} {l : Nat} {nin : Nat}
    (hl : ¬b.length < l) (hd : c.decoder (b.take l) = TRes.res [] nin) :
    runeScan c st b l = runeScan c st b (l + 1) := by
  rw [runeScan]; simp only [if_neg hl, hd]; simp

theorem runeScan_eq_hit {c : Cfg} {st : PState} {b : List Nat} {l : Nat}
    {out : List Nat} {nin : Nat}
    (hl : ¬b.length < l) (hd : c.decoder (b.take l) = TRes.res out nin)
    (hout : out ≠ []) :
    runeScan c st b l =
      (if utf8DecodeRune out ≠ 0xFFFD then
        ⟨true, true, nin,
          [Event.key TKey.keyRune (utf8DecodeRune out) (latchMod st modNone).1],
          (latchMod st modNone).2⟩
      else ⟨true, true, nin, [], st⟩) := by
  rw [runeScan]
  simp only [if_neg hl, hd]
  split
  · rfl
  · simp_all

theorem runeScan_append {c : Cfg} {st : PState} {b : List Nat} {l : Nat} (ext : List Nat)
    (h : (runeScan c st b l).done = true) :
    runeScan c st (b ++ ext) l = runeScan c st b l := by
  induction l using runeScan.induct c st b with
  | case1 l hl => rw [runeScan_eq_stop hl] at h; simp at h
  | case2 l hl hdec ih =>
    have hl2 : ¬(b ++ ext).length < l := by simp [List.length_append]; omega
    have htk : (b ++ ext).take l = b.take l :=
      List.take_append_of_le_length (by omega)
    rw [runeScan_eq_short hl hdec] at h
    rw [runeScan_eq_short hl2 (htk ▸ hdec), runeScan_eq_short hl hdec]
    exact ih h
  | case3 l hl out nin hdec hout r hr =>
    have hl2 : ¬(b ++ ext).length < l := by simp [List.length_append]; omega
    have htk : (b ++ ext).take l = b.take l :=
      List.take_append_of_le_length (by omega)
    rw [runeScan_eq_hit hl hdec (by simpa using hout),
      runeScan_eq_hit hl2 (htk ▸ hdec) (by simpa using hout)]
  | case4 l hl out nin hdec hout r hr =>
    have hl2 : ¬(b ++ ext).length < l := by simp [List.length_append]; omega
    have htk : (b ++ ext).take l = b.take l :=
      List.take_append_of_le_length (by omega)
    rw [runeScan_eq_hit hl hdec (by simpa using hout),
      runeScan_eq_hit hl2 (htk ▸ hdec) (by simpa using hout)]
  | case5 l hl out nin hdec hout ih =>
    have hl2 : ¬(b ++ ext).length < l := by simp [List.length_append]; omega
    have htk : (b ++ ext).take l = b.take l :=
      List.take_append_of_le_length (by omega)
    have hnil : out = [] := by simpa using hout
    subst hnil
    rw [runeScan_eq_nil hl hdec] at h
    rw [runeScan_eq_nil hl2 (htk ▸ hdec), runeScan_eq_nil hl hdec]
    exact ih h

theorem runeScan_consumed {c : Cfg} {st : PState} {b : List Nat} {l : Nat}
    (hd : DecoderWF c.decoder) (h : (runeScan c st b l).done = true) :
    1 ≤ (runeScan c st b l).consumed ∧ (runeScan c st b l).consumed ≤ b.length := by
  induction l using runeScan.induct c st b with
  | case1 l hl => rw [runeScan_eq_stop hl] at h; simp at h
  | case2 l hl hdec ih =>
    rw [runeScan_eq_short hl hdec] at h ⊢
    exact ih h
  | case3 l hl out nin hdec hout r hr =>
    rw [runeScan_eq_hit hl hdec (by simpa using hout)]
    have := hd.progress _ _ _ hdec (by simpa using hout)
    simp only [List.length_take] at this
    constructor <;> [skip; skip] <;> split <;> simp <;> omega
  | case4 l hl out nin hdec hout r hr =>
    rw [runeScan_eq_hit hl hdec (by simpa using hout)]
    have := hd.progress _ _ _ hdec (by simpa using hout)
    simp only [List.length_take] at this
    constructor <;> [skip; skip] <;> split <;> simp <;> omega
  | case5 l hl out nin hdec hout ih =>
    have hnil : out = [] := by simpa using hout
    subst hnil
    rw [runeScan_eq_nil hl hdec] at h ⊢
    exact ih h

theorem runeScan_done_of_decided {c : Cfg} {st : PState} {b : List Nat}
    (hd : DecoderWF c.decoder) (h80 : 0x80 ≤ b.headD 0) (hlen : 4 ≤ b.length) :
    ∀ l, 1 ≤ l → l ≤ 4 → (runeScan c st b l).done = true := by
  intro l
  induction l using runeScan.induct c st b with
  | case1 l hl => intro h1 h4; omega
  | case2 l hl hdec ih =>
    intro h1 h4
    rcases eq_or_lt_of_le h4 with h4e | h4l
    · obtain ⟨out, nin, hres, -⟩ := hd.decided4 (b.take l)
        (by rw [headD_take h1]; exact h80) (by simp [List.length_take]; omega)
      rw [hdec] at hres
      exact TRes.noConfusion hres
    · rw [runeScan_eq_short hl hdec]
      exact ih (by omega) (by omega)
  | case3 l hl out nin hdec hout r hr =>
    intro h1 h4
    rw [runeScan_eq_hit hl hdec (by simpa using hout)]
    split <;> rfl
  | case4 l hl out nin hdec hout r hr =>
    intro h1 h4
    rw [runeScan_eq_hit hl hdec (by simpa using hout)]
    split <;> rfl
  | case5 l hl out nin hdec hout ih =>
    intro h1 h4
    rcases eq_or_lt_of_le h4 with h4e | h4l
    · obtain ⟨out2, nin2, hres, hout2⟩ := hd.decided4 (b.take l)
        (by rw [headD_take h1]; exact h80) (by simp [List.length_take]; omega)
      rw [hdec] at hres
      injection hres with ho hn
      exact absurd (show out = [] by simpa using hout) (by rw [← ho] at hout2; exact hout2)
    · have hnil : out = [] := by simpa using hout
      subst hnil
      rw [runeScan_eq_nil hl hdec]
      exact ih (by omega) (by omega)

/-! ## Helper lemmas: `parseRune` -/

theorem parseRune_printable {c : Cfg} {st : PState} {b0 : Nat} {t : List Nat}
    (h1 : 0x20 ≤ b0) (h2 : b0 ≤ 0x7F) :
    parseRune c st (b0 :: t) =
      ⟨true, true, 1, [Event.key TKey.keyRune b0 (latchMod st modNone).1],
        (latchMod st modNone).2⟩ := by
  simp [parseRune, h1, h2]

theorem parseRune_ctrl {c : Cfg} {st : PState} {b0 : Nat} {t : List Nat}
    (h1 : b0 < 0x20) : parseRune c st (b0 :: t) = noMatch st := by
  have h2 : ¬(0x20 ≤ b0 ∧ b0 ≤ 0x7F) := by omega
  have h3 : b0 < 0x80 := by omega
  simp only [parseRune, if_neg h2, if_pos h3]

theorem parseRune_high {c : Cfg} {st : PState} {b0 : Nat} {t : List Nat}
    (h1 : 0x80 ≤ b0) : parseRune c st (b0 :: t) = runeScan c st (b0 :: t) 1 := by
  have h2 : ¬(0x20 ≤ b0 ∧ b0 ≤ 0x7F) := by omega
  have h3 : ¬ b0 < 0x80 := by omega
  simp only [parseRune, if_neg h2, if_neg h3]

theorem parseRune_append {c : Cfg} {st : PState} {b : List Nat} (ext : List Nat)
    (hne : b ≠ []) (h : (parseRune c st b).done = true) :
    parseRune c st (b ++ ext) = parseRune c st b := by
  cases b with
  | nil => exact absurd rfl hne
  | cons b0 t =>
    by_cases hp : 0x20 ≤ b0 ∧ b0 ≤ 0x7F
    · rw [parseRune_printable hp.1 hp.2, List.cons_append, parseRune_printable hp.1 hp.2]
    · by_cases hh : 0x80 ≤ b0
      · rw [parseRune_high hh] at h
        rw [show (b0 :: t) ++ ext = b0 :: (t ++ ext) from rfl, parseRune_high hh,
          parseRune_high hh]
        exact runeScan_append ext h
      · rw [parseRune_ctrl (by omega)] at h
        simp [noMatch] at h

theorem parseRune_noMatch_append {c : Cfg} {st : PState} {b : List Nat} (ext : List Nat)
    (hne : b ≠ []) (h : parseRune c st b = noMatch st) :
    parseRune c st (b ++ ext) = noMatch st := by
  cases b with
  | nil => exact absurd rfl hne
  | cons b0 t =>
    by_cases hp : 0x20 ≤ b0 ∧ b0 ≤ 0x7F
    · rw [parseRune_printable hp.1 hp.2] at h
      simp [noMatch] at h
    · by_cases hh : 0x80 ≤ b0
      · rw [parseRune_high hh] at h
        have := runeScan_more c st (b0 :: t) 1
        rw [h] at this
        simp [noMatch] at this
      · rw [List.cons_append, parseRune_ctrl (by omega)]

theorem parseRune_consumed {c : Cfg} {st : PState} {b : List Nat}
    (hd : DecoderWF c.decoder) (h : (parseRune c st b).done = true) :
    1 ≤ (parseRune c st b).consumed ∧ (parseRune c st b).consumed ≤ b.length := by
  cases b with
  | nil => simp [parseRune, noMatch] at h
  | cons b0 t =>
    by_cases hp : 0x20 ≤ b0 ∧ b0 ≤ 0x7F
    · rw [parseRune_printable hp.1 hp.2]
      simp
    · by_cases hh : 0x80 ≤ b0
      · rw [parseRune_high hh] at h ⊢
        exact runeScan_consumed hd h
      · rw [parseRune_ctrl (by omega)] at h
        simp [noMatch] at h

theorem parseRune_shape {c : Cfg} {st : PState} {b0 : Nat} {t : List Nat}
    (hdone : (parseRune c st (b0 :: t)).done = false)
    (hmore : (parseRune c st (b0 :: t)).more = false) :
    b0 < 0x20 ∧ parseRune c st (b0 :: t) = noMatch st := by
  by_cases hp : 0x20 ≤ b0 ∧ b0 ≤ 0x7F
  · rw [parseRune_printable hp.1 hp.2] at hdone
    simp at hdone
  · by_cases hh : 0x80 ≤ b0
    · rw [parseRune_high hh] at hmore
      rw [runeScan_more] at hmore
      cases hmore
    · exact ⟨by omega, parseRune_ctrl (by omega)⟩

theorem parseRune_partial_len {c : Cfg} {st : PState} {b : List Nat}
    (hd : DecoderWF c.decoder) (hne : b ≠ []) (h80 : 0x80 ≤ b.headD 0)
    (hdone : (parseRune c st b).done = false) : b.length ≤ 3 := by
  by_contra hlen
  cases b with
  | nil => exact absurd rfl hne
  | cons b0 t =>
    rw [parseRune_high (by simpa using h80)] at hdone
    have := @runeScan_done_of_decided c st (b0 :: t) hd h80
      (by simp at hlen ⊢; omega) 1 le_rfl (by omega)
    rw [this] at hdone
    cases hdone

/-! ## Helper lemmas: `parseFunctionKey` -/

theorem headD_append {b ext : List Nat} (hne : b ≠ []) :
    (b ++ ext).headD 0 = b.headD 0 := by
  cases b with
  | nil => exact absurd rfl hne
  | cons a t => simp

theorem fk_done_exists {st : PState} {b : List Nat} :
    ∀ (es : List (List Nat × KC)) (acc : Bool), (fkLoop st b es acc).done = true →
      ∃ p ∈ es, skipEsc p.1 = false ∧ hasPre b p.1 = true := by
  intro es
  induction es with
  | nil => intro acc h; simp [fkLoop] at h
  | cons e rest ih =>
    intro acc h
    obtain ⟨esc, k⟩ := e
    rw [fkLoop] at h
    by_cases hs : skipEsc esc
    · rw [if_pos hs] at h
      obtain ⟨p, hp, hp2⟩ := ih acc h
      exact ⟨p, List.mem_cons_of_mem _ hp, hp2⟩
    · rw [if_neg hs] at h
      by_cases hm : hasPre b esc
      · exact ⟨(esc, k), List.mem_cons_self _ _, by simpa using hs, hm⟩
      · rw [if_neg hm] at h
        split at h
        · obtain ⟨p, hp, hp2⟩ := ih true h
          exact ⟨p, List.mem_cons_of_mem _ hp, hp2⟩
        · obtain ⟨p, hp, hp2⟩ := ih acc h
          exact ⟨p, List.mem_cons_of_mem _ hp, hp2⟩

theorem fk_more_acc {st : PState} {b : List Nat} :
    ∀ (es : List (List Nat × KC)), (fkLoop st b es true).more = true := by
  intro es
  induction es with
  | nil => simp [fkLoop]
  | cons e rest ih =>
    obtain ⟨esc, k⟩ := e
    rw [fkLoop]
    by_cases hs : skipEsc esc
    · rw [if_pos hs]; exact ih
    · rw [if_neg hs]
      by_cases hm : hasPre b esc
      · rw [if_pos hm]
      · rw [if_neg hm]
        split <;> exact ih

theorem fkLoop_append {st : PState} {b : List Nat} (ext : List Nat)
    (es : List (List Nat × KC))
    (hpf : ∀ e1 ∈ es, ∀ e2 ∈ es, e1.1 <+: e2.1 → e1.1 = e2.1) :
    ∀ acc, (fkLoop st b es acc).done = true →
      fkLoop st (b ++ ext) es acc = fkLoop st b es acc := by
  induction es with
  | nil => intro acc h; simp [fkLoop] at h
  | cons e rest ih =>
    intro acc h
    obtain ⟨esc, k⟩ := e
    rw [fkLoop] at h ⊢
    conv_rhs => rw [fkLoop]
    by_cases hs : skipEsc esc
    · rw [if_pos hs] at h ⊢
      rw [if_pos hs]
      exact ih (fun e1 h1 e2 h2 => hpf e1 (List.mem_cons_of_mem _ h1) e2
        (List.mem_cons_of_mem _ h2)) acc h
    · rw [if_neg hs] at h ⊢
      rw [if_neg hs]
      by_cases hm : hasPre b esc
      · rw [if_pos hm] at h ⊢
        rw [if_pos (hasPre_of_append hm)]
        by_cases h1 : esc.length = 1
        · have hne : esc ≠ [] := by cases esc <;> simp_all
          rw [headD_append (hasPre_ne_nil hm hne)]
        · simp [h1]
      · rw [if_neg hm] at h ⊢
        by_cases hx : hasPre esc b
        · rw [if_pos hx] at h
          obtain ⟨p, hp, hps, hpb⟩ := fk_done_exists rest true h
          have h1 : p.1 <+: b := (hasPre_iff _ _).mp hpb
          have h2 : b <+: esc := (hasPre_iff _ _).mp hx
          have := hpf p (List.mem_cons_of_mem _ hp) (esc, k) (List.mem_cons_self _ _)
            (h1.trans h2)
          rw [this] at h1
          exact absurd ((hasPre_iff _ _).mpr h1) hm
        · rw [if_neg hx] at h
          have hm2 : ¬hasPre (b ++ ext) esc := by
            intro hc
            rcases hasPre_append_cases hc with hc | hc
            · exact hm hc
            · exact hx hc
          have hx2 : ¬hasPre esc (b ++ ext) := by
            intro hc
            exact hx ((hasPre_iff _ _).mpr
              ((List.prefix_append b ext).trans ((hasPre_iff _ _).mp hc)))
          rw [if_neg hm2, if_neg hx2, if_neg hx]
          exact ih (fun e1 h1 e2 h2 => hpf e1 (List.mem_cons_of_mem _ h1) e2
            (List.mem_cons_of_mem _ h2)) acc h

theorem fkLoop_noMatch_append {st : PState} {b : List Nat} (ext : List Nat)
    (es : List (List Nat × KC))
    (h : fkLoop st b es false = ⟨false, false, 0, [], st⟩) :
    fkLoop st (b ++ ext) es false = ⟨false, false, 0, [], st⟩ := by
  induction es with
  | nil => simp [fkLoop] at h ⊢
  | cons e rest ih =>
    obtain ⟨esc, k⟩ := e
    rw [fkLoop] at h ⊢
    by_cases hs : skipEsc esc
    · rw [if_pos hs] at h ⊢
      exact ih h
    · rw [if_neg hs] at h ⊢
      by_cases hm : hasPre b esc
      · rw [if_pos hm] at h
        exact absurd (congrArg MRes.done h) (by simp)
      · rw [if_neg hm] at h
        by_cases hx : hasPre esc b
        · rw [if_pos hx] at h
          have := @fk_more_acc st b rest
          rw [h] at this
          simp at this
        · rw [if_neg hx] at h
          have hm2 : ¬hasPre (b ++ ext) esc := by
            intro hc
            rcases hasPre_append_cases hc with hc | hc
            · exact hm hc
            · exact hx hc
          have hx2 : ¬hasPre esc (b ++ ext) := by
            intro hc
            exact hx ((hasPre_iff _ _).mpr
              ((List.prefix_append b ext).trans ((hasPre_iff _ _).mp hc)))
          rw [if_neg hm2, if_neg hx2]
          exact ih h

theorem fk_consumed {st : PState} {b : List Nat} :
    ∀ (es : List (List Nat × KC)) (acc : Bool), (∀ e ∈ es, e.1 ≠ []) →
      (fkLoop st b es acc).done = true →
      1 ≤ (fkLoop st b es acc).consumed ∧ (fkLoop st b es acc).consumed ≤ b.length := by
  intro es
  induction es with
  | nil => intro acc hne h; simp [fkLoop] at h
  | cons e rest ih =>
    intro acc hne h
    obtain ⟨esc, k⟩ := e
    rw [fkLoop] at h ⊢
    by_cases hs : skipEsc esc
    · rw [if_pos hs] at h ⊢
      exact ih acc (fun e he => hne e (List.mem_cons_of_mem _ he)) h
    · rw [if_neg hs] at h ⊢
      by_cases hm : hasPre b esc
      · rw [if_pos hm]
        have hne2 : esc ≠ [] := hne (esc, k) (List.mem_cons_self _ _)
        refine ⟨by cases esc <;> simp_all, ?_⟩
        simpa using hasPre_length hm
      · rw [if_neg hm] at h ⊢
        split at h <;> rename_i hx
        · rw [if_pos hx]
          exact ih true (fun e he => hne e (List.mem_cons_of_mem _ he)) h
        · rw [if_neg hx]
          exact ih acc (fun e he => hne e (List.mem_cons_of_mem _ he)) h

theorem fk_done_head {st : PState} {b : List Nat} {es : List (List Nat × KC)} {acc : Bool}
    (hne : ∀ e ∈ es, e.1 ≠ []) (hheads : ∀ e ∈ es, e.1.headD 0 < 0x80)
    (h : (fkLoop st b es acc).done = true) : b.headD 0 < 0x80 := by
  obtain ⟨p, hp, hps, hpb⟩ := fk_done_exists es acc h
  rw [hasPre_headD hpb (hne p hp)]
  exact hheads p hp

/-! ## Helper lemmas: the mouse byte-machines -/

theorem xtermRun_append {c : Cfg} {pst : PState} (ext : List Nat) :
    ∀ (bs : List Nat) (state : Nat) (btn x : Int) (pos : Nat),
      (xtermRun c pst bs state btn x pos).done = true →
      xtermRun c pst (bs ++ ext) state btn x pos = xtermRun c pst bs state btn x pos := by
  intro bs
  induction bs with
  | nil => intro state btn x pos h; simp [xtermRun] at h
  | cons b rest ih =>
    intro state btn x pos h
    simp only [List.cons_append]
    rw [xtermRun] at h ⊢
    conv_rhs => rw [xtermRun]
    split_ifs at h ⊢ <;>
      first
        | rfl
        | (exact ih _ _ _ _ h)
        | (simp [noMatch] at h; done)

theorem xtermRun_noMatch_append {c : Cfg} {pst : PState} (ext : List Nat) :
    ∀ (bs : List Nat) (state : Nat) (btn x : Int) (pos : Nat),
      xtermRun c pst bs state btn x pos = noMatch pst →
      xtermRun c pst (bs ++ ext) state btn x pos = noMatch pst := by
  intro bs
  induction bs with
  | nil => intro state btn x pos h; simp [xtermRun, noMatch] at h
  | cons b rest ih =>
    intro state btn x pos h
    simp only [List.cons_append]
    rw [xtermRun] at h ⊢
    split_ifs at h ⊢ <;>
      first
        | rfl
        | (exact ih _ _ _ _ h)
        | (exact h)
        | (simp [noMatch] at h; done)

theorem xtermRun_consumed {c : Cfg} {pst : PState} :
    ∀ (bs : List Nat) (state : Nat) (btn x : Int) (pos : Nat),
      (xtermRun c pst bs state btn x pos).done = true →
      pos + 1 ≤ (xtermRun c pst bs state btn x pos).consumed ∧
        (xtermRun c pst bs state btn x pos).consumed ≤ pos + bs.length := by
  intro bs
  induction bs with
  | nil => intro state btn x pos h; simp [xtermRun] at h
  | cons b rest ih =>
    intro state btn x pos h
    rw [xtermRun] at h ⊢
    split_ifs at h ⊢ <;>
      first
        | (simp [noMatch] at h; done)
        | (have h9 := ih _ _ _ _ h; simp only [List.length_cons]; omega)
        | (simp; done)
        | (simp; omega; done)

theorem xtermRun_len {c : Cfg} {pst : PState} :
    ∀ (bs : List Nat) (state : Nat) (btn x : Int) (pos : Nat),
      (xtermRun c pst bs state btn x pos).done = true →
      (if state ≤ 1 then 5 else if state ≤ 4 then 6 - state else 1) ≤ bs.length := by
  intro bs
  induction bs with
  | nil => intro state btn x pos h; simp [xtermRun] at h
  | cons b rest ih =>
    intro state btn x pos h
    rw [xtermRun] at h
    split_ifs at h <;>
      first
        | (simp [noMatch] at h; done)
        | (have h9 := ih _ _ _ _ h; simp at h9; simp only [List.length_cons];
            split_ifs <;> omega)
        | (simp only [List.length_cons]; split_ifs <;> omega)

theorem sgrRun_nil {c : Cfg} {pst : PState} {s : SgrAcc} {pos : Nat} :
    sgrRun c pst [] s pos = ⟨true, false, 0, [], pst⟩ := rfl

/-- One byte of the SGR machine either steps to a successor accumulator
(with the length bound shrinking by at most one), rejects, or (from
state 5 on a terminator) completes consuming `pos + 1` bytes; which of
the three happens does not depend on the bytes that follow. -/
theorem sgrStep (b : Nat) (s : SgrAcc) :
    (∃ s2 : SgrAcc,
        ((if s.state ≤ 1 then 5 else if s.state ≤ 5 then 6 - s.state else 1) ≤
          (if s2.state ≤ 1 then 5 else if s2.state ≤ 5 then 6 - s2.state else 1) + 1) ∧
        ∀ (c : Cfg) (pst : PState) (rest : List Nat) (pos : Nat),
          sgrRun c pst (b :: rest) s pos = sgrRun c pst rest s2 (pos + 1)) ∨
    (∀ (c : Cfg) (pst : PState) (rest : List Nat) (pos : Nat),
        sgrRun c pst (b :: rest) s pos = noMatch pst) ∨
    (s.state = 5 ∧ ∀ (c : Cfg) (pst : PState), ∃ (ev : Event) (st2 : PState),
        ∀ (rest : List Nat) (pos : Nat),
          sgrRun c pst (b :: rest) s pos = ⟨true, true, pos + 1, [ev], st2⟩) := by
  by_cases hEsc : b = 0x1B
  · by_cases hs : s.state = 0
    · refine Or.inl ⟨{ s with state := 1 }, by simp [hs], fun c pst rest pos => ?_⟩
      rw [sgrRun]; simp [hEsc, hs]
    · refine Or.inr (Or.inl (fun c pst rest pos => ?_))
      rw [sgrRun]; simp [hEsc, hs]
  · by_cases hCsi : b = 0x9B
    · by_cases hs : s.state = 0
      · refine Or.inl ⟨{ s with state := 2 }, by simp [hs], fun c pst rest pos => ?_⟩
        rw [sgrRun]; simp [hEsc, hCsi, hs]
      · refine Or.inr (Or.inl (fun c pst rest pos => ?_))
        rw [sgrRun]; simp [hEsc, hCsi, hs]
    · by_cases hBrk : b = 0x5B
      · by_cases hs : s.state = 1
        · refine Or.inl ⟨{ s with state := 2 }, by simp [hs], fun c pst rest pos => ?_⟩
          rw [sgrRun]; simp [hEsc, hCsi, hBrk, hs]
        · refine Or.inr (Or.inl (fun c pst rest pos => ?_))
          rw [sgrRun]; simp [hEsc, hCsi, hBrk, hs]
      · by_cases hLt : b = 0x3C
        · by_cases hs : s.state = 2
          · refine Or.inl
              ⟨{ s with state := 3, val := 0, dig := false, neg := false },
                by simp [hs], fun c pst rest pos => ?_⟩
            rw [sgrRun]; simp [hEsc, hCsi, hBrk, hLt, hs]
          · refine Or.inr (Or.inl (fun c pst rest pos => ?_))
            rw [sgrRun]; simp [hEsc, hCsi, hBrk, hLt, hs]
        · by_cases hMin : b = 0x2D
          · by_cases hs : s.state ≠ 3 ∧ s.state ≠ 4 ∧ s.state ≠ 5
            · refine Or.inr (Or.inl (fun c pst rest pos => ?_))
              rw [sgrRun]; simp [hEsc, hCsi, hBrk, hLt, hMin, hs]
            · by_cases hdn : s.dig ∨ s.neg
              · refine Or.inr (Or.inl (fun c pst rest pos => ?_))
                rw [sgrRun]; simp only [if_neg hEsc, if_neg hCsi, if_neg hBrk,
                  if_neg hLt, if_pos hMin, if_neg hs, if_pos hdn]
              · refine Or.inl ⟨{ s with neg := true }, by simp, fun c pst rest pos => ?_⟩
                rw [sgrRun]; simp only [if_neg hEsc, if_neg hCsi, if_neg hBrk,
                  if_neg hLt, if_pos hMin, if_neg hs, if_neg hdn]
          · by_cases hDig : 0x30 ≤ b ∧ b ≤ 0x39
            · by_cases hs : s.state ≠ 3 ∧ s.state ≠ 4 ∧ s.state ≠ 5
              · refine Or.inr (Or.inl (fun c pst rest pos => ?_))
                rw [sgrRun]; simp [hEsc, hCsi, hBrk, hLt, hMin, hDig, hs]
              · refine Or.inl
                  ⟨{ s with val := s.val * 10 + ((b : Int) - 0x30), dig := true },
                    by simp, fun c pst rest pos => ?_⟩
                rw [sgrRun]; simp only [if_neg hEsc, if_neg hCsi, if_neg hBrk,
                  if_neg hLt, if_neg hMin, if_pos hDig, if_neg hs]
            · by_cases hSemi : b = 0x3B
              · by_cases hs3 : s.state = 3
                · refine Or.inl
                    ⟨{ s with btn := (if s.neg then -s.val else s.val), val := 0, neg := false, dig := false, state := 4 },
                      by simp [hs3], fun c pst rest pos => ?_⟩
                  rw [sgrRun]
                  simp only [if_neg hEsc, if_neg hCsi, if_neg hBrk, if_neg hLt,
                    if_neg hMin, if_neg hDig, if_pos hSemi, if_pos hs3]
                · by_cases hs4 : s.state = 4
                  · refine Or.inl
                      ⟨{ s with x := (if s.neg then -s.val else s.val) - 1, val := 0, neg := false, dig := false, state := 5 },
                        by simp [hs4], fun c pst rest pos => ?_⟩
                    rw [sgrRun]
                    simp only [if_neg hEsc, if_neg hCsi, if_neg hBrk, if_neg hLt,
                      if_neg hMin, if_neg hDig, if_pos hSemi, if_neg hs3, if_pos hs4]
                  · refine Or.inr (Or.inl (fun c pst rest pos => ?_))
                    rw [sgrRun]
                    simp only [if_neg hEsc, if_neg hCsi, if_neg hBrk, if_neg hLt,
                      if_neg hMin, if_neg hDig, if_pos hSemi, if_neg hs3, if_neg hs4]
              · by_cases hTerm : b = 0x6D ∨ b = 0x4D
                · by_cases hs : s.state = 5
                  · exact Or.inr (Or.inr ⟨hs, fun c pst => ⟨_, _, fun rest pos => by
                      rw [sgrRun]
                      simp only [if_neg hEsc, if_neg hCsi, if_neg hBrk, if_neg hLt,
                        if_neg hMin, if_neg hDig, if_neg hSemi, if_pos hTerm]
                      rw [if_neg (show ¬s.state ≠ 5 by simp [hs])]⟩⟩)
                  · refine Or.inr (Or.inl (fun c pst rest pos => ?_))
                    rw [sgrRun]
                    simp only [if_neg hEsc, if_neg hCsi, if_neg hBrk, if_neg hLt,
                      if_neg hMin, if_neg hDig, if_neg hSemi, if_pos hTerm,
                      if_pos hs]
                · refine Or.inl ⟨s, by simp, fun c pst rest pos => ?_⟩
                  rw [sgrRun]
                  simp only [if_neg hEsc, if_neg hCsi, if_neg hBrk, if_neg hLt,
                    if_neg hMin, if_neg hDig, if_neg hSemi, if_neg hTerm]

theorem sgrRun_append {c : Cfg} {pst : PState} (ext : List Nat) :
    ∀ (bs : List Nat) (s : SgrAcc) (pos : Nat),
      (sgrRun c pst bs s pos).done = true →
      sgrRun c pst (bs ++ ext) s pos = sgrRun c pst bs s pos := by
  intro bs
  induction bs with
  | nil => intro s pos h; rw [sgrRun_nil] at h; simp at h
  | cons b rest ih =>
    intro s pos h
    simp only [List.cons_append]
    rcases sgrStep b s with ⟨s2, -, heq⟩ | heq | ⟨-, hterm⟩
    · rw [heq c pst rest pos] at h
      rw [heq c pst (rest ++ ext) pos, heq c pst rest pos]
      exact ih s2 (pos + 1) h
    · rw [heq c pst rest pos] at h
      simp [noMatch] at h
    · obtain ⟨ev, st2, heq⟩ := hterm c pst
      rw [heq (rest ++ ext) pos, heq rest pos]

theorem sgrRun_noMatch_append {c : Cfg} {pst : PState} (ext : List Nat) :
    ∀ (bs : List Nat) (s : SgrAcc) (pos : Nat),
      sgrRun c pst bs s pos = noMatch pst →
      sgrRun c pst (bs ++ ext) s pos = noMatch pst := by
  intro bs
  induction bs with
  | nil => intro s pos h; rw [sgrRun_nil] at h; simp [noMatch] at h
  | cons b rest ih =>
    intro s pos h
    simp only [List.cons_append]
    rcases sgrStep b s with ⟨s2, -, heq⟩ | heq | ⟨-, hterm⟩
    · rw [heq c pst rest pos] at h
      rw [heq c pst (rest ++ ext) pos]
      exact ih s2 (pos + 1) h
    · rw [heq c pst (rest ++ ext) pos]
    · obtain ⟨ev, st2, heq⟩ := hterm c pst
      rw [heq rest pos] at h
      simp [noMatch] at h

theorem sgrRun_consumed {c : Cfg} {pst : PState} :
    ∀ (bs : List Nat) (s : SgrAcc) (pos : Nat),
      (sgrRun c pst bs s pos).done = true →
      pos + 1 ≤ (sgrRun c pst bs s pos).consumed ∧
        (sgrRun c pst bs s pos).consumed ≤ pos + bs.length := by
  intro bs
  induction bs with
  | nil => intro s pos h; rw [sgrRun_nil] at h; simp at h
  | cons b rest ih =>
    intro s pos h
    rcases sgrStep b s with ⟨s2, -, heq⟩ | heq | ⟨-, hterm⟩
    · rw [heq c pst rest pos] at h ⊢
      have := ih s2 (pos + 1) h
      simp only [List.length_cons]
      omega
    · rw [heq c pst rest pos] at h
      simp [noMatch] at h
    · obtain ⟨ev, st2, heq⟩ := hterm c pst
      rw [heq rest pos]
      simp only [List.length_cons]
      exact ⟨Nat.le_refl _, by simp⟩

theorem sgrRun_len {c : Cfg} {pst : PState} :
    ∀ (bs : List Nat) (s : SgrAcc) (pos : Nat),
      (sgrRun c pst bs s pos).done = true →
      (if s.state ≤ 1 then 5 else if s.state ≤ 5 then 6 - s.state else 1) ≤ bs.length := by
  intro bs
  induction bs with
  | nil => intro s pos h; rw [sgrRun_nil] at h; simp at h
  | cons b rest ih =>
    intro s pos h
    rcases sgrStep b s with ⟨s2, hlb, heq⟩ | heq | ⟨h5, hterm⟩
    · rw [heq c pst rest pos] at h
      have := ih s2 (pos + 1) h
      simp only [List.length_cons]
      split_ifs at hlb this ⊢ <;> omega
    · rw [heq c pst rest pos] at h
      simp [noMatch] at h
    · simp only [List.length_cons]
      split_ifs <;> omega

theorem xtermRun_cons0 {c : Cfg} {pst : PState} {b : Nat} {rest : List Nat}
    {btn x : Int} {pos : Nat} :
    xtermRun c pst (b :: rest) 0 btn x pos =
      (if b = 0x1B then xtermRun c pst rest 1 btn x (pos + 1)
       else if b = 0x9B then xtermRun c pst rest 2 btn x (pos + 1)
       else noMatch pst) := by
  rw [xtermRun]; simp

theorem xtermRun_cons1 {c : Cfg} {pst : PState} {b : Nat} {rest : List Nat}
    {btn x : Int} {pos : Nat} :
    xtermRun c pst (b :: rest) 1 btn x pos =
      (if b = 0x5B then xtermRun c pst rest 2 btn x (pos + 1) else noMatch pst) := by
  rw [xtermRun]; simp

theorem xtermRun_cons2 {c : Cfg} {pst : PState} {b : Nat} {rest : List Nat}
    {btn x : Int} {pos : Nat} :
    xtermRun c pst (b :: rest) 2 btn x pos =
      (if b = 0x4D then xtermRun c pst rest 3 btn x (pos + 1) else noMatch pst) := by
  rw [xtermRun]; simp

/-- An inconclusive `parseXtermMouse` run (partial, not complete) leaves
only short buffers or buffers that already commit to `CSI M`. -/
theorem xterm_wait_cases {c : Cfg} {pst : PState} {bs : List Nat} {btn x : Int} {pos : Nat}
    (hm : (xtermRun c pst bs 0 btn x pos).more = true)
    (hd : (xtermRun c pst bs 0 btn x pos).done = false) :
    bs.length ≤ 2 ∨ ∃ t, bs = 0x9B :: 0x4D :: t ∨ bs = 0x1B :: 0x5B :: 0x4D :: t := by
  match bs with
  | [] => exact Or.inl (by simp)
  | [b0] => exact Or.inl (by simp)
  | [b0, b1] => exact Or.inl (by simp)
  | b0 :: b1 :: b2 :: t =>
    rw [xtermRun_cons0] at hm hd
    by_cases h0 : b0 = 0x1B
    · rw [if_pos h0, xtermRun_cons1] at hm hd
      by_cases h1 : b1 = 0x5B
      · rw [if_pos h1, xtermRun_cons2] at hm hd
        by_cases h2 : b2 = 0x4D
        · exact Or.inr ⟨t, Or.inr (by rw [h0, h1, h2])⟩
        · rw [if_neg h2] at hm
          simp [noMatch] at hm
      · rw [if_neg h1] at hm
        simp [noMatch] at hm
    · rw [if_neg h0] at hm hd
      by_cases h9 : b0 = 0x9B
      · rw [if_pos h9, xtermRun_cons2] at hm hd
        by_cases h1 : b1 = 0x4D
        · exact Or.inr ⟨b2 :: t, Or.inl (by rw [h9, h1])⟩
        · rw [if_neg h1] at hm
          simp [noMatch] at hm
      · rw [if_neg h9] at hm
        simp [noMatch] at hm

/-- SGR parsing rejects a buffer that commits to the legacy `ESC [ M`
introducer: `M` is a terminator byte and arrives in state 2, not 5. -/
theorem sgr_csiM {c : Cfg} {pst : PState} {t : List Nat} :
    parseSgrMouse c pst (0x1B :: 0x5B :: 0x4D :: t) = noMatch pst := by
  rw [parseSgrMouse, sgrRun]
  norm_num
  rw [sgrRun]
  norm_num
  rw [sgrRun]
  norm_num

/-! ## Helper lemmas: the matchers as `scanInput` sees them -/

theorem mouseXt_append {c : Cfg} {st : PState} {b : List Nat} (ext : List Nat)
    (h : (mouseXt c st b).done = true) : mouseXt c st (b ++ ext) = mouseXt c st b := by
  unfold mouseXt at h ⊢
  split_ifs at h ⊢ with hm
  · exact xtermRun_append ext b 0 0 0 0 h
  · simp [noMatch] at h

theorem mouseXt_noMatch_append {c : Cfg} {st : PState} {b : List Nat} (ext : List Nat)
    (h : mouseXt c st b = noMatch st) : mouseXt c st (b ++ ext) = noMatch st := by
  unfold mouseXt at h ⊢
  split_ifs at h ⊢ with hm
  · exact xtermRun_noMatch_append ext b 0 0 0 0 h
  · rfl

theorem mouseSgr_append {c : Cfg} {st : PState} {b : List Nat} (ext : List Nat)
    (h : (mouseSgr c st b).done = true) : mouseSgr c st (b ++ ext) = mouseSgr c st b := by
  unfold mouseSgr at h ⊢
  split_ifs at h ⊢ with hm
  · exact sgrRun_append ext b _ 0 h
  · simp [noMatch] at h

theorem mouseSgr_noMatch_append {c : Cfg} {st : PState} {b : List Nat} (ext : List Nat)
    (h : mouseSgr c st b = noMatch st) : mouseSgr c st (b ++ ext) = noMatch st := by
  unfold mouseSgr at h ⊢
  split_ifs at h ⊢ with hm
  · exact sgrRun_noMatch_append ext b _ 0 h
  · rfl

theorem mouseXt_consumed {c : Cfg} {st : PState} {b : List Nat}
    (h : (mouseXt c st b).done = true) :
    1 ≤ (mouseXt c st b).consumed ∧ (mouseXt c st b).consumed ≤ b.length := by
  unfold mouseXt at h ⊢
  split_ifs at h ⊢ with hm
  · simpa using xtermRun_consumed b 0 0 0 0 h
  · simp [noMatch] at h

theorem mouseSgr_consumed {c : Cfg} {st : PState} {b : List Nat}
    (h : (mouseSgr c st b).done = true) :
    1 ≤ (mouseSgr c st b).consumed ∧ (mouseSgr c st b).consumed ≤ b.length := by
  unfold mouseSgr at h ⊢
  split_ifs at h ⊢ with hm
  · simpa using sgrRun_consumed b _ 0 h
  · simp [noMatch] at h

theorem mouseXt_len {c : Cfg} {st : PState} {b : List Nat}
    (h : (mouseXt c st b).done = true) : 4 ≤ b.length := by
  unfold mouseXt at h
  split_ifs at h with hm
  · have := xtermRun_len b 0 0 0 0 h
    simp at this
    omega
  · simp [noMatch] at h

theorem mouseSgr_len {c : Cfg} {st : PState} {b : List Nat}
    (h : (mouseSgr c st b).done = true) : 4 ≤ b.length := by
  unfold mouseSgr at h
  split_ifs at h with hm
  · have := sgrRun_len b _ 0 h
    simp at this
    omega
  · simp [noMatch] at h

/-! ## Helper lemmas: one `scanInput` iteration -/

theorem scanStep_emit1 {c : Cfg} {st : PState} {b0 : Nat} {rest : List Nat} {e : Bool}
    (h : (parseRune c st (b0 :: rest)).done = true) :
    scanStep c st (b0 :: rest) e =
      StepRes.emit (parseRune c st (b0 :: rest)).evs
        (parseRune c st (b0 :: rest)).consumed (parseRune c st (b0 :: rest)).st := by
  rw [scanStep]
  simp only [h, if_true]

theorem scanStep_emit2 {c : Cfg} {st : PState} {b0 : Nat} {rest : List Nat} {e : Bool}
    (h1 : (parseRune c st (b0 :: rest)).done = false)
    (h : (parseFunctionKey c st (b0 :: rest)).done = true) :
    scanStep c st (b0 :: rest) e =
      StepRes.emit (parseFunctionKey c st (b0 :: rest)).evs
        (parseFunctionKey c st (b0 :: rest)).consumed
        (parseFunctionKey c st (b0 :: rest)).st := by
  rw [scanStep]
  simp only [h1, h, if_true, if_false, Bool.false_eq_true]

theorem scanStep_emit3 {c : Cfg} {st : PState} {b0 : Nat} {rest : List Nat} {e : Bool}
    (h1 : (parseRune c st (b0 :: rest)).done = false)
    (h2 : (parseFunctionKey c st (b0 :: rest)).done = false)
    (h : (mouseXt c st (b0 :: rest)).done = true) :
    scanStep c st (b0 :: rest) e =
      StepRes.emit (mouseXt c st (b0 :: rest)).evs
        (mouseXt c st (b0 :: rest)).consumed (mouseXt c st (b0 :: rest)).st := by
  rw [scanStep]
  simp only [h1, h2, h, if_true, if_false, Bool.false_eq_true]

theorem scanStep_emit4 {c : Cfg} {st : PState} {b0 : Nat} {rest : List Nat} {e : Bool}
    (h1 : (parseRune c st (b0 :: rest)).done = false)
    (h2 : (parseFunctionKey c st (b0 :: rest)).done = false)
    (h3 : (mouseXt c st (b0 :: rest)).done = false)
    (h : (mouseSgr c st (b0 :: rest)).done = true) :
    scanStep c st (b0 :: rest) e =
      StepRes.emit (mouseSgr c st (b0 :: rest)).evs
        (mouseSgr c st (b0 :: rest)).consumed (mouseSgr c st (b0 :: rest)).st := by
  rw [scanStep]
  simp only [h1, h2, h3, h, if_true, if_false, Bool.false_eq_true]

theorem scanStep_fb {c : Cfg} {st : PState} {b0 : Nat} {rest : List Nat} {e : Bool}
    (h1 : (parseRune c st (b0 :: rest)).done = false)
    (h2 : (parseFunctionKey c st (b0 :: rest)).done = false)
    (h3 : (mouseXt c st (b0 :: rest)).done = false)
    (h4 : (mouseSgr c st (b0 :: rest)).done = false)
    (hps : pcount c st (b0 :: rest) = 0 ∨ e = true) :
    scanStep c st (b0 :: rest) e =
      (if b0 = 0x1B then
        (if rest = [] then
          StepRes.emit [Event.key TKey.keyEsc 0 modNone] 1 { st with escaped := false }
        else StepRes.emit [] 1 { st with escaped := true })
      else
        StepRes.emit [Event.key TKey.keyRune b0
          (if st.escaped then modAlt else modNone)] 1 { st with escaped := false }) := by
  rw [scanStep]
  simp only [h1, h2, h3, h4, if_false, Bool.false_eq_true]
  rw [if_pos (by rcases hps with h | h; exact Or.inl h; exact Or.inr (by simp [h]))]

theorem scanStep_wait {c : Cfg} {st : PState} {b0 : Nat} {rest : List Nat}
    (h1 : (parseRune c st (b0 :: rest)).done = false)
    (h2 : (parseFunctionKey c st (b0 :: rest)).done = false)
    (h3 : (mouseXt c st (b0 :: rest)).done = false)
    (h4 : (mouseSgr c st (b0 :: rest)).done = false)
    (hps : pcount c st (b0 :: rest) ≠ 0) :
    scanStep c st (b0 :: rest) false = StepRes.wait := by
  rw [scanStep]
  simp only [h1, h2, h3, h4, if_false, Bool.false_eq_true]
  rw [if_neg (by simp [hps])]

theorem xtermRun_done_indep :
    ∀ (bs : List Nat) (state : Nat) (c c' : Cfg) (pst pst' : PState)
      (btn btn' x x' : Int) (pos pos' : Nat),
      (xtermRun c pst bs state btn x pos).done =
        (xtermRun c' pst' bs state btn' x' pos').done := by
  intro bs
  induction bs with
  | nil => intro state c c' pst pst' btn btn' x x' pos pos'; rfl
  | cons b rest ih =>
    intro state c c' pst pst' btn btn' x x' pos pos'
    conv_lhs => rw [xtermRun]
    conv_rhs => rw [xtermRun]
    split_ifs <;>
      first
        | rfl
        | (exact ih _ _ _ _ _ _ _ _ _ _ _)
        | simp

theorem sgrRun_done_indep :
    ∀ (bs : List Nat) (s : SgrAcc) (c c' : Cfg) (pst pst' : PState) (pos pos' : Nat),
      (sgrRun c pst bs s pos).done = (sgrRun c' pst' bs s pos').done := by
  intro bs
  induction bs with
  | nil => intro s c c' pst pst' pos pos'; rfl
  | cons b rest ih =>
    intro s c c' pst pst' pos pos'
    rcases sgrStep b s with ⟨s2, -, heq⟩ | heq | ⟨-, hterm⟩
    · rw [heq c pst rest pos, heq c' pst' rest pos']
      exact ih _ _ _ _ _ _ _
    · rw [heq c pst rest pos, heq c' pst' rest pos']
      rfl
    · obtain ⟨ev, st2, heq⟩ := hterm c pst
      obtain ⟨ev', st2', heq'⟩ := hterm c' pst'
      rw [heq rest pos, heq' rest pos']

theorem mouseXt_done_indep (c : Cfg) (st st' : PState) (b : List Nat) :
    (mouseXt c st b).done = (mouseXt c st' b).done := by
  unfold mouseXt
  split_ifs
  · exact xtermRun_done_indep b 0 c c st st' 0 0 0 0 0 0
  · rfl

theorem mouseSgr_done_indep (c : Cfg) (st st' : PState) (b : List Nat) :
    (mouseSgr c st b).done = (mouseSgr c st' b).done := by
  unfold mouseSgr
  split_ifs
  · exact sgrRun_done_indep b _ c c st st' 0 0
  · rfl

/-- The `mouseFree` field of `CfgWF`, lifted to `mouseXt`/`mouseSgr` at
an arbitrary parser state. -/
theorem mouseFree_at {c : Cfg} (wf : CfgWF c) (st : PState) {e : List Nat × KC}
    (he : e ∈ c.entries) {b : List Nat} (hp : b <+: e.1) (hne : b ≠ e.1) :
    (mouseXt c st b).done = false ∧ (mouseSgr c st b).done = false := by
  by_cases hm : c.mouse = true
  · have := wf.mouseFree hm e he b hp hne
    constructor
    · rw [mouseXt_done_indep c st ⟨false, false, false⟩ b]
      simpa [mouseXt, hm] using this.1
    · rw [mouseSgr_done_indep c st ⟨false, false, false⟩ b]
      simpa [mouseSgr, hm] using this.2
  · constructor <;> simp [mouseXt, mouseSgr, hm, noMatch]

theorem xtermRun_shape {c : Cfg} {pst : PState} :
    ∀ (bs : List Nat) (state : Nat) (btn x : Int) (pos : Nat),
      xtermRun c pst bs state btn x pos = noMatch pst ∨
        (xtermRun c pst bs state btn x pos).more = true := by
  intro bs
  induction bs with
  | nil => intro state btn x pos; right; rfl
  | cons b rest ih =>
    intro state btn x pos
    rw [xtermRun]
    split_ifs <;>
      first
        | (exact ih _ _ _ _)
        | (left; rfl)
        | (right; simp)

theorem sgrRun_shape {c : Cfg} {pst : PState} :
    ∀ (bs : List Nat) (s : SgrAcc) (pos : Nat),
      sgrRun c pst bs s pos = noMatch pst ∨ (sgrRun c pst bs s pos).more = true := by
  intro bs
  induction bs with
  | nil => intro s pos; right; rfl
  | cons b rest ih =>
    intro s pos
    rcases sgrStep b s with ⟨s2, -, heq⟩ | heq | ⟨-, hterm⟩
    · rw [heq c pst rest pos]
      exact ih _ _
    · rw [heq c pst rest pos]
      left; rfl
    · obtain ⟨ev, st2, heq⟩ := hterm c pst
      rw [heq rest pos]
      right; rfl

theorem mouseXt_noMatch_of_ff {c : Cfg} {st : PState} {b : List Nat}
    (hm : (mouseXt c st b).more = false) : mouseXt c st b = noMatch st := by
  unfold mouseXt at hm ⊢
  unfold parseXtermMouse at hm ⊢
  split_ifs at hm ⊢ with h
  · rcases xtermRun_shape b 0 0 0 0 with hs | hs
    · exact hs
    · rw [hs] at hm; cases hm
  · rfl

theorem mouseSgr_noMatch_of_ff {c : Cfg} {st : PState} {b : List Nat}
    (hm : (mouseSgr c st b).more = false) : mouseSgr c st b = noMatch st := by
  unfold mouseSgr at hm ⊢
  unfold parseSgrMouse at hm ⊢
  split_ifs at hm ⊢ with h
  · rcases sgrRun_shape b _ 0 with hs | hs
    · exact hs
    · rw [hs] at hm; cases hm
  · rfl

theorem fk_shape {st : PState} {b : List Nat} :
    ∀ (es : List (List Nat × KC)) (acc : Bool), (fkLoop st b es acc).done = false →
      fkLoop st b es acc = ⟨(fkLoop st b es acc).more, false, 0, [], st⟩ := by
  intro es
  induction es with
  | nil => intro acc h; rfl
  | cons e rest ih =>
    intro acc h
    obtain ⟨esc, k⟩ := e
    rw [fkLoop] at h ⊢
    split_ifs at h ⊢ <;> first | (exact ih _ h) | (simp at h)

theorem fk_exists_done {st : PState} {b : List Nat} :
    ∀ (es : List (List Nat × KC)) (acc : Bool),
      (∃ p ∈ es, skipEsc p.1 = false ∧ hasPre b p.1 = true) →
      (fkLoop st b es acc).done = true := by
  intro es
  induction es with
  | nil => intro acc h; simp at h
  | cons e rest ih =>
    intro acc ⟨p, hp, hps, hpb⟩
    obtain ⟨esc, k⟩ := e
    rw [fkLoop]
    rcases List.mem_cons.mp hp with he | he
    · subst he
      rw [if_neg (by simpa using hps), if_pos (by simpa using hpb)]
    · split_ifs <;> first | rfl | (exact ih _ ⟨p, he, hps, hpb⟩)

theorem pcount_zero {c : Cfg} {st : PState} {b : List Nat}
    (h : pcount c st b = 0) :
    (parseRune c st b).more = false ∧ (parseFunctionKey c st b).more = false ∧
      (mouseXt c st b).more = false ∧ (mouseSgr c st b).more = false := by
  unfold pcount at h
  split_ifs at h <;> simp_all

theorem fk_more_of_wait {st : PState} {b : List Nat} :
    ∀ (es : List (List Nat × KC)) (acc : Bool),
      (∃ p ∈ es, skipEsc p.1 = false ∧ hasPre p.1 b = true ∧ hasPre b p.1 = false) →
      (fkLoop st b es acc).more = true := by
  intro es
  induction es with
  | nil => intro acc h; simp at h
  | cons e rest ih =>
    intro acc ⟨p, hp, hps, hpb, hnb⟩
    obtain ⟨esc, k⟩ := e
    rw [fkLoop]
    rcases List.mem_cons.mp hp with he | he
    · subst he
      rw [if_neg (by simpa using hps), if_neg (by simpa using hnb),
        if_pos (by simpa using hpb)]
      exact fk_more_acc rest
    · split_ifs <;>
        first
          | rfl
          | (exact ih _ ⟨p, he, hps, hpb, hnb⟩)
          | (exact fk_more_acc rest)

theorem pfk_head {c : Cfg} (wf : CfgWF c) {st : PState} {b : List Nat}
    (h : (parseFunctionKey c st b).done = true) : b.headD 0 < 0x80 :=
  fk_done_head wf.entriesNE wf.heads h

theorem step_bounds {c : Cfg} (wf : CfgWF c) {st : PState} {b : List Nat} {e : Bool}
    {evs : List Event} {n : Nat} {st2 : PState}
    (h : scanStep c st b e = StepRes.emit evs n st2) : 1 ≤ n ∧ n ≤ b.length := by
  cases b with
  | nil => rw [scanStep] at h; cases h
  | cons b0 rest =>
    cases hr1 : (parseRune c st (b0 :: rest)).done
    case true =>
      rw [scanStep_emit1 hr1] at h
      cases h
      exact parseRune_consumed wf.dec hr1
    case false =>
    cases hr2 : (parseFunctionKey c st (b0 :: rest)).done
    case true =>
      rw [scanStep_emit2 hr1 hr2] at h
      cases h
      exact fk_consumed c.entries false wf.entriesNE hr2
    case false =>
    cases hr3 : (mouseXt c st (b0 :: rest)).done
    case true =>
      rw [scanStep_emit3 hr1 hr2 hr3] at h
      cases h
      exact mouseXt_consumed hr3
    case false =>
    cases hr4 : (mouseSgr c st (b0 :: rest)).done
    case true =>
      rw [scanStep_emit4 hr1 hr2 hr3 hr4] at h
      cases h
      exact mouseSgr_consumed hr4
    case false =>
    by_cases hps : pcount c st (b0 :: rest) = 0 ∨ e = true
    · rw [scanStep_fb hr1 hr2 hr3 hr4 hps] at h
      split_ifs at h <;> cases h <;> simp
    · rw [scanStep] at h
      simp only [hr1, hr2, hr3, hr4, if_false, Bool.false_eq_true] at h
      rw [if_neg (by push_neg at hps ⊢; exact ⟨hps.1, by simp [hps.2]⟩)] at h
      cases h

theorem hasPre_refl (s : List Nat) : hasPre s s = true :=
  (hasPre_iff s s).mpr (List.prefix_refl s)

/-- The key stability fact behind split-invariance: an emitting iteration
of `scanInput` (without expiration) emits the same events, consumes the
same bytes and reaches the same state when the buffer is extended on the
right. -/
theorem step_ext {c : Cfg} (wf : CfgWF c) {st : PState} {b : List Nat}
    {evs : List Event} {n : Nat} {st2 : PState} (ext : List Nat)
    (h : scanStep c st b false = StepRes.emit evs n st2) :
    scanStep c st (b ++ ext) false = StepRes.emit evs n st2 := by
  cases b with
  | nil => rw [scanStep] at h; cases h
  | cons b0 rest =>
    rw [show (b0 :: rest) ++ ext = b0 :: (rest ++ ext) from rfl]
    cases hr1 : (parseRune c st (b0 :: rest)).done
    case true =>
      rw [scanStep_emit1 hr1] at h
      have hpa : parseRune c st (b0 :: (rest ++ ext)) = parseRune c st (b0 :: rest) :=
        parseRune_append ext (by simp) hr1
      rw [scanStep_emit1 (by rw [hpa]; exact hr1), hpa]
      exact h
    case false =>
    cases hr2 : (parseFunctionKey c st (b0 :: rest)).done
    case true =>
      have hh : b0 < 0x80 := by simpa using pfk_head wf hr2
      have hlt : b0 < 0x20 := by
        by_contra hge
        push_neg at hge
        have hpr := @parseRune_printable c st _ rest hge (by omega)
        rw [hpr] at hr1
        simp at hr1
      have hr1e : parseRune c st (b0 :: (rest ++ ext)) = noMatch st := parseRune_ctrl hlt
      have hfk : parseFunctionKey c st (b0 :: (rest ++ ext)) =
          parseFunctionKey c st (b0 :: rest) :=
        fkLoop_append ext c.entries wf.pfree false hr2
      rw [scanStep_emit2 (by rw [hr1e]; rfl) (by rw [hfk]; exact hr2), hfk]
      rw [scanStep_emit2 hr1 hr2] at h
      exact h
    case false =>
    -- from here on, a completing matcher is one of the mouse parsers,
    -- or the fallback fires; in both cases the head byte is a control byte
    cases hr3 : (mouseXt c st (b0 :: rest)).done
    case true =>
      have hlt : b0 < 0x20 := by
        rcases Nat.lt_or_ge b0 0x20 with h' | h'
        · exact h'
        exfalso
        rcases Nat.lt_or_ge b0 0x80 with h'' | h''
        · have hpr := @parseRune_printable c st _ rest h' (by omega)
          rw [hpr] at hr1
          simp at hr1
        · have hl3 := parseRune_partial_len wf.dec (by simp) (by simpa using h'') hr1
          have hl4 := mouseXt_len hr3
          omega
      have hr1e : parseRune c st (b0 :: (rest ++ ext)) = noMatch st := parseRune_ctrl hlt
      have hr2e : (parseFunctionKey c st (b0 :: (rest ++ ext))).done = false := by
        cases hd : (parseFunctionKey c st (b0 :: (rest ++ ext))).done
        · rfl
        exfalso
        obtain ⟨p, hp, hps, hpb⟩ := @fk_done_exists st _ c.entries false hd
        rcases @hasPre_append_cases (b0 :: rest) _ ext hpb with hc | hc
        · have hdone : (parseFunctionKey c st (b0 :: rest)).done = true :=
            @fk_exists_done st (b0 :: rest) c.entries false ⟨p, hp, hps, hc⟩
          rw [hr2] at hdone
          cases hdone
        · by_cases heq2 : (b0 :: rest) = p.1
          · have hdone : (parseFunctionKey c st (b0 :: rest)).done = true :=
              @fk_exists_done st (b0 :: rest) c.entries false
                ⟨p, hp, hps, by rw [heq2]; exact hasPre_refl p.1⟩
            rw [hr2] at hdone
            cases hdone
          · have hmf := mouseFree_at wf st hp ((hasPre_iff _ _).mp hc) heq2
            rw [hr3] at hmf
            exact Bool.noConfusion hmf.1
      have hxa : mouseXt c st (b0 :: (rest ++ ext)) = mouseXt c st (b0 :: rest) :=
        mouseXt_append ext hr3
      rw [scanStep_emit3 (by rw [hr1e]; rfl) hr2e (by rw [hxa]; exact hr3), hxa]
      rw [scanStep_emit3 hr1 hr2 hr3] at h
      exact h
    case false =>
    cases hr4 : (mouseSgr c st (b0 :: rest)).done
    case true =>
      have hlt : b0 < 0x20 := by
        rcases Nat.lt_or_ge b0 0x20 with h' | h'
        · exact h'
        exfalso
        rcases Nat.lt_or_ge b0 0x80 with h'' | h''
        · have hpr := @parseRune_printable c st _ rest h' (by omega)
          rw [hpr] at hr1
          simp at hr1
        · have hl3 := parseRune_partial_len wf.dec (by simp) (by simpa using h'') hr1
          have hl4 := mouseSgr_len hr4
          omega
      have hr1e : parseRune c st (b0 :: (rest ++ ext)) = noMatch st := parseRune_ctrl hlt
      have hr2e : (parseFunctionKey c st (b0 :: (rest ++ ext))).done = false := by
        cases hd : (parseFunctionKey c st (b0 :: (rest ++ ext))).done
        · rfl
        exfalso
        obtain ⟨p, hp, hps, hpb⟩ := @fk_done_exists st _ c.entries false hd
        rcases @hasPre_append_cases (b0 :: rest) _ ext hpb with hc | hc
        · have hdone : (parseFunctionKey c st (b0 :: rest)).done = true :=
            @fk_exists_done st (b0 :: rest) c.entries false ⟨p, hp, hps, hc⟩
          rw [hr2] at hdone
          cases hdone
        · by_cases heq2 : (b0 :: rest) = p.1
          · have hdone : (parseFunctionKey c st (b0 :: rest)).done = true :=
              @fk_exists_done st (b0 :: rest) c.entries false
                ⟨p, hp, hps, by rw [heq2]; exact hasPre_refl p.1⟩
            rw [hr2] at hdone
            cases hdone
          · have hmf := mouseFree_at wf st hp ((hasPre_iff _ _).mp hc) heq2
            rw [hr4] at hmf
            exact Bool.noConfusion hmf.2
      have hr3e : (mouseXt c st (b0 :: (rest ++ ext))).done = false := by
        cases hm3 : (mouseXt c st (b0 :: rest)).more
        · have hnm := mouseXt_noMatch_of_ff hm3
          have hse : mouseXt c st (b0 :: (rest ++ ext)) = noMatch st :=
            mouseXt_noMatch_append ext hnm
          rw [hse]
          rfl
        · exfalso
          by_cases hmo : c.mouse = true
          · have hm3x : (parseXtermMouse c st (b0 :: rest)).more = true := by
              unfold mouseXt at hm3
              rw [if_pos hmo] at hm3
              exact hm3
            have hd3x : (parseXtermMouse c st (b0 :: rest)).done = false := by
              unfold mouseXt at hr3
              rw [if_pos hmo] at hr3
              exact hr3
            rcases xterm_wait_cases hm3x hd3x with hlen | ⟨t, hsh | hsh⟩
            · have := mouseSgr_len hr4
              omega
            · have : b0 = 0x9B := by
                have := congrArg (fun l => l.headD 0) hsh
                simpa using this
              omega
            · have hnm : mouseSgr c st (b0 :: rest) = noMatch st := by
                unfold mouseSgr
                rw [if_pos hmo, hsh]
                exact sgr_csiM
              rw [hnm] at hr4
              exact Bool.noConfusion hr4
          · unfold mouseXt at hm3
            rw [if_neg hmo] at hm3
            exact Bool.noConfusion hm3
      have hsa : mouseSgr c st (b0 :: (rest ++ ext)) = mouseSgr c st (b0 :: rest) :=
        mouseSgr_append ext hr4
      rw [scanStep_emit4 (by rw [hr1e]; rfl) hr2e hr3e (by rw [hsa]; exact hr4), hsa]
      rw [scanStep_emit4 hr1 hr2 hr3 hr4] at h
      exact h
    case false =>
    by_cases hps : pcount c st (b0 :: rest) = 0
    · obtain ⟨hm1, hm2, hm3, hm4⟩ := pcount_zero hps
      obtain ⟨hlt, hr1n⟩ := parseRune_shape hr1 hm1
      have hr1e : parseRune c st (b0 :: (rest ++ ext)) = noMatch st := parseRune_ctrl hlt
      have hr2n : parseFunctionKey c st (b0 :: rest) = noMatch st := by
        have h2 : parseFunctionKey c st (b0 :: rest) =
            ⟨(parseFunctionKey c st (b0 :: rest)).more, false, 0, [], st⟩ :=
          fk_shape c.entries false hr2
        rw [h2, hm2]
        rfl
      have hr2e : parseFunctionKey c st (b0 :: (rest ++ ext)) = noMatch st :=
        fkLoop_noMatch_append ext c.entries hr2n
      have hr3e : mouseXt c st (b0 :: (rest ++ ext)) = noMatch st :=
        mouseXt_noMatch_append ext (mouseXt_noMatch_of_ff hm3)
      have hr4e : mouseSgr c st (b0 :: (rest ++ ext)) = noMatch st :=
        mouseSgr_noMatch_append ext (mouseSgr_noMatch_of_ff hm4)
      have hpse : pcount c st (b0 :: (rest ++ ext)) = 0 := by
        unfold pcount
        rw [hr1e, hr2e, hr3e, hr4e]
        rfl
      rw [scanStep_fb hr1 hr2 hr3 hr4 (Or.inl hps)] at h
      rw [scanStep_fb (by rw [hr1e]; rfl) (by rw [hr2e]; rfl) (by rw [hr3e]; rfl)
        (by rw [hr4e]; rfl) (Or.inl hpse)]
      by_cases hesc : b0 = 0x1B
      · have hrest : rest ≠ [] := by
          intro hre
          subst hre
          rcases wf.escGuard with hmo | ⟨p, hp, hph, hpl⟩
          · have hx : (mouseXt c st [b0]).more = true := by
              unfold mouseXt
              rw [if_pos hmo, hesc]
              rfl
            rw [hx] at hm3
            exact Bool.noConfusion hm3
          · have hpre : hasPre p.1 [b0] = true := by
              cases hp1 : p.1 with
              | nil => rw [hp1] at hpl; simp at hpl
              | cons a t =>
                rw [hp1] at hph
                simp at hph
                simp [hasPre, hph, hesc]
            have hnotp : hasPre [b0] p.1 = false := by
              cases hd : hasPre [b0] p.1
              · rfl
              · exfalso
                have hl := hasPre_length hd
                simp at hl
                omega
            have hskip : skipEsc p.1 = false := by
              unfold skipEsc
              simp only [Bool.and_eq_false_iff]
              left
              simp
              omega
            have hmore : (parseFunctionKey c st [b0]).more = true :=
              @fk_more_of_wait st [b0] c.entries false
                ⟨p, hp, hskip, hpre, hnotp⟩
            rw [hmore] at hm2
            exact Bool.noConfusion hm2
        rw [if_pos hesc, if_neg hrest] at h
        rw [if_pos hesc, if_neg (by simp [hrest])]
        exact h
      · rw [if_neg hesc] at h
        rw [if_neg hesc]
        exact h
    · rw [scanStep_wait hr1 hr2 hr3 hr4 hps] at h
      cases h

theorem scanLoop_fuel {c : Cfg} (wf : CfgWF c) :
    ∀ (f g : Nat) (st : PState) (b : List Nat) (e : Bool),
      b.length < f → b.length < g →
      scanLoop c f st b e = scanLoop c g st b e := by
  intro f
  induction f with
  | zero => intro g st b e hf hg; omega
  | succ f ih =>
    intro g st b e hf hg
    cases g with
    | zero => omega
    | succ g =>
      conv_lhs => rw [scanLoop]
      conv_rhs => rw [scanLoop]
      cases hs : scanStep c st b e with
      | wait => rfl
      | emit evs n st2 =>
        simp only [hs]
        have hb := step_bounds wf hs
        have h1 : (List.drop n b).length < f := by rw [List.length_drop]; omega
        have h2 : (List.drop n b).length < g := by rw [List.length_drop]; omega
        rw [ih g st2 (b.drop n) e h1 h2]

theorem scan_append {c : Cfg} (wf : CfgWF c) :
    ∀ (f : Nat) (b ext : List Nat) (st : PState), b.length < f →
      scanInput c st (b ++ ext) false =
        ((scanLoop c f st b false).1 ++
            (scanInput c (scanLoop c f st b false).2.2
              ((scanLoop c f st b false).2.1 ++ ext) false).1,
          (scanInput c (scanLoop c f st b false).2.2
            ((scanLoop c f st b false).2.1 ++ ext) false).2.1,
          (scanInput c (scanLoop c f st b false).2.2
            ((scanLoop c f st b false).2.1 ++ ext) false).2.2) := by
  intro f
  induction f with
  | zero => intro b ext st hf; omega
  | succ f ih =>
    intro b ext st hf
    conv_rhs => rw [scanLoop]
    cases hs : scanStep c st b false with
    | wait =>
      simp only [hs]
      simp
    | emit evs n st2 =>
      simp only [hs]
      have hb := step_bounds wf hs
      have hsx := step_ext wf ext hs
      rw [scanInput]
      conv_lhs => rw [scanLoop]
      simp only [hsx]
      have hdp : (b ++ ext).drop n = b.drop n ++ ext :=
        List.drop_append_of_le_length hb.2
      rw [hdp]
      have hfl1 : (b.drop n ++ ext).length < (b ++ ext).length := by
        simp only [List.length_append, List.length_drop]
        omega
      rw [scanLoop_fuel wf ((b ++ ext).length) ((b.drop n ++ ext).length + 1) st2
        (b.drop n ++ ext) false hfl1 (Nat.lt_succ_self _)]
      have hsi : scanLoop c ((b.drop n ++ ext).length + 1) st2 (b.drop n ++ ext) false =
          scanInput c st2 (b.drop n ++ ext) false := rfl
      rw [hsi]
      rw [ih (b.drop n) ext st2 (by rw [List.length_drop]; omega)]
      simp [List.append_assoc]

theorem scanInput_append {c : Cfg} (wf : CfgWF c) (b ext : List Nat) (st : PState) :
    scanInput c st (b ++ ext) false =
      ((scanInput c st b false).1 ++
          (scanInput c (scanInput c st b false).2.2
            ((scanInput c st b false).2.1 ++ ext) false).1,
        (scanInput c (scanInput c st b false).2.2
          ((scanInput c st b false).2.1 ++ ext) false).2.1,
        (scanInput c (scanInput c st b false).2.2
          ((scanInput c st b false).2.1 ++ ext) false).2.2) :=
  scan_append wf (b.length + 1) b ext st (Nat.lt_succ_self _)

/-- C1: for a well-formed configuration (nonempty, prefix-free key codes
starting below `0x80`; a lone ESC kept pending by an ESC-prefixed entry
or mouse support; no entry extending a complete mouse record; a decoder
that consumes when it outputs and decides high-byte input within four
bytes), delivering a byte sequence `S` in one piece produces exactly the
same event stream as delivering `S[:k]` and then `S[k:]`, with
expiration fired only after all bytes are delivered. -/
theorem c1_split_invariance {c : Cfg} (wf : CfgWF c) (st : PState) (S : List Nat) (k : Nat) :
    deliver c st [S] = deliver c st [S.take k, S.drop k] := by
  have hud : S.take k ++ S.drop k = S := List.take_append_drop k S
  have happ := scanInput_append wf (S.take k) (S.drop k) st
  rw [hud] at happ
  simp only [deliver, feedChunks]
  simp only [List.nil_append, List.append_nil, happ]

/-! ## Helper lemmas for the remaining claims -/

theorem mouseFree_of_short {c : Cfg} (h4 : ∀ e ∈ c.entries, e.1.length ≤ 4) :
    c.mouse = true → ∀ e ∈ c.entries, ∀ b, b <+: e.1 → b ≠ e.1 →
      (parseXtermMouse c ⟨false, false, false⟩ b).done = false ∧
      (parseSgrMouse c ⟨false, false, false⟩ b).done = false := by
  intro _ e he b hp hne
  have hl : b.length < e.1.length :=
    lt_of_le_of_ne hp.length_le (fun hlen => hne (List.IsPrefix.eq_of_length hp hlen))
  have hb4 : b.length < 4 := lt_of_lt_of_le hl (h4 e he)
  constructor
  · cases hd : (parseXtermMouse c ⟨false, false, false⟩ b).done
    · rfl
    · have := xtermRun_len b 0 0 0 0 hd
      simp at this
      omega
  · cases hd : (parseSgrMouse c ⟨false, false, false⟩ b).done
    · rfl
    · have := sgrRun_len b ⟨0, false, false, 0, 0, 0⟩ 0 hd
      simp at this
      omega

theorem decW_wf : DecoderWF decW := by
  constructor
  · intro p out nin hd hne
    cases p with
    | nil =>
      rw [show decW [] = TRes.res [] 0 from rfl] at hd
      cases hd
      exact absurd rfl hne
    | cons b0 t =>
      rw [show decW (b0 :: t) = TRes.res [0xC0 + b0 / 0x40, 0x80 + b0 % 0x40] 1 from rfl] at hd
      cases hd
      exact ⟨le_rfl, by simp⟩
  · intro p h80 hlen
    cases p with
    | nil => simp at hlen
    | cons b0 t => exact ⟨_, _, rfl, by simp⟩

theorem cfgW_wf : CfgWF cfgW :=
  ⟨by decide, by decide, by decide, Or.inl rfl, decW_wf, mouseFree_of_short (by decide)⟩

theorem fk_done_result {st : PState} {b : List Nat} :
    ∀ (es : List (List Nat × KC)) (acc : Bool), (fkLoop st b es acc).done = true →
      ∃ p ∈ es, skipEsc p.1 = false ∧ hasPre b p.1 = true ∧
        fkLoop st b es acc = ⟨true, true, p.1.length,
          [Event.key p.2.key (if p.1.length = 1 then b.headD 0 else 0)
            (latchMod st p.2.mod).1], (latchMod st p.2.mod).2⟩ := by
  intro es
  induction es with
  | nil => intro acc h; simp [fkLoop] at h
  | cons e rest ih =>
    intro acc h
    obtain ⟨esc, k⟩ := e
    rw [fkLoop] at h ⊢
    by_cases hs : skipEsc esc
    · rw [if_pos hs] at h ⊢
      obtain ⟨p, hp, hp2, hp3, hp4⟩ := ih acc h
      exact ⟨p, List.mem_cons_of_mem _ hp, hp2, hp3, hp4⟩
    · rw [if_neg hs] at h ⊢
      by_cases hm : hasPre b esc
      · rw [if_pos hm] at h ⊢
        exact ⟨(esc, k), List.mem_cons_self _ _, by simpa using hs, hm, rfl⟩
      · rw [if_neg hm] at h ⊢
        split at h
        · obtain ⟨p, hp, hp2, hp3, hp4⟩ := ih true h
          rw [if_pos (by assumption)]
          exact ⟨p, List.mem_cons_of_mem _ hp, hp2, hp3, hp4⟩
        · obtain ⟨p, hp, hp2, hp3, hp4⟩ := ih acc h
          rw [if_neg (by assumption)]
          exact ⟨p, List.mem_cons_of_mem _ hp, hp2, hp3, hp4⟩

theorem fk_wait_exists {st : PState} {b : List Nat} :
    ∀ (es : List (List Nat × KC)), (fkLoop st b es false).more = true →
      (fkLoop st b es false).done = false →
      ∃ p ∈ es, skipEsc p.1 = false ∧ hasPre p.1 b = true ∧ hasPre b p.1 = false := by
  intro es
  induction es with
  | nil => intro hm hd; simp [fkLoop] at hm
  | cons e rest ih =>
    intro hm hd
    obtain ⟨esc, k⟩ := e
    rw [fkLoop] at hm hd
    by_cases hs : skipEsc esc
    · rw [if_pos hs] at hm hd
      obtain ⟨p, hp, h2, h3, h4⟩ := ih hm hd
      exact ⟨p, List.mem_cons_of_mem _ hp, h2, h3, h4⟩
    · rw [if_neg hs] at hm hd
      by_cases hb : hasPre b esc
      · rw [if_pos hb] at hd
        simp at hd
      · rw [if_neg hb] at hm hd
        by_cases hp : hasPre esc b
        · exact ⟨(esc, k), List.mem_cons_self _ _, by simpa using hs, hp,
            by simpa using hb⟩
        · rw [if_neg hp] at hm hd
          obtain ⟨p, hp2, h2, h3, h4⟩ := ih hm hd
          exact ⟨p, List.mem_cons_of_mem _ hp2, h2, h3, h4⟩

theorem fk_filter {st : PState} {b : List Nat} :
    ∀ (es : List (List Nat × KC)) (acc : Bool),
      fkLoop st b es acc =
        fkLoop st b (es.filter fun e => !skipEsc e.1) acc := by
  intro es
  induction es with
  | nil => intro acc; rfl
  | cons e rest ih =>
    intro acc
    obtain ⟨esc, k⟩ := e
    cases hs : skipEsc esc
    · have hcond : (! skipEsc (esc, k).1) = true := by simp [hs]
      rw [List.filter_cons, if_pos hcond, fkLoop, fkLoop]
      rw [if_neg (show ¬ (skipEsc esc = true) by simp [hs])]
      rw [if_neg (show ¬ (skipEsc esc = true) by simp [hs])]
      split_ifs <;> first | rfl | (exact ih _)
    · rw [List.filter_cons, if_neg (by simp [hs]), fkLoop, if_pos (by simp [hs])]
      exact ih _

theorem fk_esc_one {c : Cfg} {st : PState}
    (hne : ∀ e ∈ c.entries, e.1 ≠ []) :
    (parseFunctionKey c st [0x1B]).done = false := by
  cases hd : (parseFunctionKey c st [0x1B]).done
  · rfl
  · obtain ⟨p, hp, hskip, hpre⟩ := fk_done_exists c.entries false hd
    have hne1 := hne p hp
    obtain ⟨t, ht⟩ := (hasPre_iff _ _).mp hpre
    have : p.1 = [0x1B] := by
      cases hp1 : p.1 with
      | nil => exact absurd hp1 hne1
      | cons x xs =>
        rw [hp1] at ht
        cases xs with
        | nil => simp at ht; simp [ht.1]
        | cons y ys => simp at ht
    rw [this] at hskip
    simp [skipEsc] at hskip

theorem runeScan_alt {c : Cfg} {st : PState} {b : List Nat} {l : Nat}
    (hesc : st.escaped = true) (hevs : (runeScan c st b l).evs ≠ []) :
    ∃ r n, runeScan c st b l =
      ⟨true, true, n, [Event.key TKey.keyRune r (modNone ||| modAlt)],
        { st with escaped := false }⟩ := by
  induction l using runeScan.induct c st b with
  | case1 l hl => rw [runeScan_eq_stop hl] at hevs ⊢; simp at hevs
  | case2 l hl hdec ih =>
    rw [runeScan_eq_short hl hdec] at hevs ⊢
    exact ih hevs
  | case3 l hl out nin hdec hout r hr =>
    rw [runeScan_eq_hit hl hdec (by simpa using hout)] at hevs ⊢
    rw [if_pos (by simpa using hr)] at hevs ⊢
    exact ⟨utf8DecodeRune out, nin, by simp [latchMod, hesc]⟩
  | case4 l hl out nin hdec hout r hr =>
    rw [runeScan_eq_hit hl hdec (by simpa using hout)] at hevs
    rw [if_neg (by simpa using hr)] at hevs
    simp at hevs
  | case5 l hl out nin hdec hout ih =>
    have hout0 : out = [] := by simpa using hout
    rw [hout0] at hdec
    rw [runeScan_eq_nil hl hdec] at hevs ⊢
    exact ih hevs

theorem parseRune_alt {c : Cfg} {st : PState} {b : List Nat}
    (hesc : st.escaped = true) (hevs : (parseRune c st b).evs ≠ []) :
    ∃ r n, parseRune c st b =
      ⟨true, true, n, [Event.key TKey.keyRune r (modNone ||| modAlt)],
        { st with escaped := false }⟩ := by
  cases b with
  | nil => simp [parseRune, noMatch] at hevs
  | cons b0 t =>
    by_cases hp : 0x20 ≤ b0 ∧ b0 ≤ 0x7F
    · rw [parseRune_printable hp.1 hp.2]
      exact ⟨b0, 1, by simp [latchMod, hesc]⟩
    · by_cases hh : 0x80 ≤ b0
      · rw [parseRune_high hh] at hevs ⊢
        exact runeScan_alt hesc hevs
      · rw [parseRune_ctrl (by omega)] at hevs
        simp [noMatch] at hevs

theorem runeScan_skip {c : Cfg} {st : PState} {b : List Nat} :
    ∀ (d l : Nat),
      (∀ j, l ≤ j → j < l + d → ¬ b.length < j ∧
        (c.decoder (b.take j) = TRes.shortSrc ∨
          ∃ n, c.decoder (b.take j) = TRes.res [] n)) →
      runeScan c st b l = runeScan c st b (l + d) := by
  intro d
  induction d with
  | zero => intro l _; rfl
  | succ d ih =>
    intro l hj
    obtain ⟨hl, hbr⟩ := hj l le_rfl (by omega)
    have hstep : runeScan c st b l = runeScan c st b (l + 1) := by
      rcases hbr with h | ⟨n, h⟩
      · exact runeScan_eq_short hl h
      · exact runeScan_eq_nil hl h
    rw [hstep, ih (l + 1) (fun j h1 h2 => hj j (by omega) (by omega))]
    have : l + 1 + d = l + (d + 1) := by omega
    rw [this]

theorem wheel_keep {c : Cfg} {st : PState} {x y btn : Int}
    (h : landMask btn 0x43 = 0x40 ∨ landMask btn 0x43 = 0x41) :
    (postMouseEvent c st x y btn).2 = st := by
  obtain ⟨e, w, bd⟩ := st
  rcases h with h | h <;> simp [postMouseEvent, h]

theorem wheel_ev {c : Cfg} {st : PState} {x y btn : Int}
    (hwb : st.wasbtn = false)
    (h : landMask btn 0x43 = 0x40 ∨ landMask btn 0x43 = 0x41) :
    evBtn (postMouseEvent c st x y btn).1 = MBtn.wheelUp ∨
      evBtn (postMouseEvent c st x y btn).1 = MBtn.wheelDown := by
  rcases h with h | h
  · left; simp [postMouseEvent, evBtn, h, hwb]
  · right; simp [postMouseEvent, evBtn, h, hwb]

/-! ## Claim C5 -/

/-- C5: whatever raw coordinates the wire parsers supply, the mouse event
built by `postMouseEvent` carries coordinates clipped into
`[0, w) × [0, h)` of the current cell-buffer size (the buffer being
nonempty in both dimensions). -/
theorem c5_mouse_clip (c : Cfg) (st : PState) (x y btn : Int)
    (hw : 1 ≤ c.w) (hh : 1 ≤ c.h) :
    0 ≤ evX (postMouseEvent c st x y btn).1 ∧
      evX (postMouseEvent c st x y btn).1 < c.w ∧
      0 ≤ evY (postMouseEvent c st x y btn).1 ∧
      evY (postMouseEvent c st x y btn).1 < c.h := by
  have hx : evX (postMouseEvent c st x y btn).1 = (clip c x y).1 := rfl
  have hy : evY (postMouseEvent c st x y btn).1 = (clip c x y).2 := rfl
  rw [hx, hy]
  unfold clip
  dsimp only
  split_ifs <;> omega

theorem c5_mouse_clip_witness :
    0 ≤ evX (postMouseEvent cfgW pst0 (-5) 100 0).1 ∧
      evX (postMouseEvent cfgW pst0 (-5) 100 0).1 < cfgW.w ∧
      0 ≤ evY (postMouseEvent cfgW pst0 (-5) 100 0).1 ∧
      evY (postMouseEvent cfgW pst0 (-5) 100 0).1 < cfgW.h :=
  c5_mouse_clip cfgW pst0 (-5) 100 0 (by decide) (by decide)

/-! ## Claim C6 -/

/-- C6: a raw button with `btn & 0x43 = 0x40` decodes to WheelUp unless
the `wasbtn` debounce latch is held (then Button1), `0x41` likewise to
WheelDown or Button2, and neither wheel code changes the latch; the latch
is set on the press codes 0, 1, 2, cleared on the release code 3, and
untouched by every other code. -/
theorem c6_wheel_debounce (c : Cfg) (st : PState) (x y : Int) :
    (∀ btn, landMask btn 0x43 = 0x40 →
      evBtn (postMouseEvent c st x y btn).1 =
        (if st.wasbtn then MBtn.b1 else MBtn.wheelUp) ∧
      (postMouseEvent c st x y btn).2.wasbtn = st.wasbtn) ∧
    (∀ btn, landMask btn 0x43 = 0x41 →
      evBtn (postMouseEvent c st x y btn).1 =
        (if st.wasbtn then MBtn.b2 else MBtn.wheelDown) ∧
      (postMouseEvent c st x y btn).2.wasbtn = st.wasbtn) ∧
    (∀ btn, landMask btn 0x43 = 0 ∨ landMask btn 0x43 = 1 ∨ landMask btn 0x43 = 2 →
      (postMouseEvent c st x y btn).2.wasbtn = true) ∧
    (∀ btn, landMask btn 0x43 = 3 → (postMouseEvent c st x y btn).2.wasbtn = false) ∧
    (∀ btn, landMask btn 0x43 ≠ 0 → landMask btn 0x43 ≠ 1 → landMask btn 0x43 ≠ 2 →
      landMask btn 0x43 ≠ 3 → (postMouseEvent c st x y btn).2.wasbtn = st.wasbtn) := by
  refine ⟨?_, ?_, ?_, ?_, ?_⟩
  · intro btn h
    cases hw : st.wasbtn <;> simp [postMouseEvent, evBtn, h, hw]
  · intro btn h
    cases hw : st.wasbtn <;> simp [postMouseEvent, evBtn, h, hw]
  · intro btn h
    rcases h with h | h | h <;> simp [postMouseEvent, h]
  · intro btn h
    simp [postMouseEvent, h]
  · intro btn h0 h1 h2 h3
    simp only [postMouseEvent]
    split_ifs <;> simp_all

theorem c6_wheel_debounce_witness :
    evBtn (postMouseEvent cfgW pst0 0 0 0x40).1 = MBtn.wheelUp ∧
    (postMouseEvent cfgW pst0 0 0 3).2.wasbtn = false ∧
    (postMouseEvent cfgW pst0 0 0 0).2.wasbtn = true := by
  refine ⟨?_, ?_, ?_⟩
  · have h := ((c6_wheel_debounce cfgW pst0 0 0).1 0x40 (by decide)).1
    exact h.trans (by decide)
  · exact (c6_wheel_debounce cfgW pst0 0 0).2.2.2.1 3 (by decide)
  · exact (c6_wheel_debounce cfgW pst0 0 0).2.2.1 0 (by decide)

/-! ## Claim C10 -/

/-- C10: wheel impulses never modify the debounce latch: for raw codes
with `btn & 0x43` equal to `0x40` or `0x41`, `postMouseEvent` returns the
parser flags unchanged, so a run of consecutive wheel reports arriving
with no button held decodes every report as WheelUp or WheelDown and
leaves the flags exactly as they started. -/
theorem c10_wheel_latch (c : Cfg) :
    (∀ (st : PState) (x y btn : Int),
      landMask btn 0x43 = 0x40 ∨ landMask btn 0x43 = 0x41 →
      (postMouseEvent c st x y btn).2 = st) ∧
    (∀ (st : PState) (reports : List (Int × Int × Int)), st.wasbtn = false →
      (∀ r ∈ reports,
        landMask (r : Int × Int × Int).2.2 0x43 = 0x40 ∨ landMask r.2.2 0x43 = 0x41) →
      (∀ ev ∈ (postMouseRun c st reports).1,
        evBtn ev = MBtn.wheelUp ∨ evBtn ev = MBtn.wheelDown) ∧
      (postMouseRun c st reports).2 = st) := by
  refine ⟨fun st x y btn h => wheel_keep h, ?_⟩
  intro st reports hwb
  induction reports with
  | nil =>
    intro _
    exact ⟨fun ev h => by simp [postMouseRun] at h, rfl⟩
  | cons r rs ih =>
    intro hall
    have hr := hall r (List.mem_cons_self _ _)
    have hst : (postMouseEvent c st r.1 r.2.1 r.2.2).2 = st := wheel_keep hr
    have ihr := ih (fun r2 h2 => hall r2 (List.mem_cons_of_mem _ h2))
    constructor
    · intro ev hev
      simp only [postMouseRun, hst] at hev
      rcases List.mem_cons.mp hev with he | he
      · rw [he]
        exact wheel_ev hwb hr
      · exact ihr.1 ev he
    · simp only [postMouseRun, hst]
      exact ihr.2

theorem c10_wheel_latch_witness :
    evBtn ((postMouseRun cfgW pst0 [(1, 1, 0x40), (2, 2, 0x41), (3, 3, 0x40)]).1.headD
        (Event.key TKey.keyEsc 0 0)) = MBtn.wheelUp ∨
      evBtn ((postMouseRun cfgW pst0 [(1, 1, 0x40), (2, 2, 0x41), (3, 3, 0x40)]).1.headD
        (Event.key TKey.keyEsc 0 0)) = MBtn.wheelDown :=
  ((c10_wheel_latch cfgW).2 pst0 [(1, 1, 0x40), (2, 2, 0x41), (3, 3, 0x40)] rfl
      (by decide)).1 _ (by decide)

/-! ## Claim C2 -/

/-- C2 (amended): a first byte in the printable range `0x20..0x7F`
(`0x7F` included, unlike the spec's `0x7E`) makes `parseRune` emit
`Key{Rune, b, Alt if the escaped latch is set else None}`, consume one
byte, clear the latch and report complete; a first byte below `0x20`
returns `(false, false)` with nothing consumed or emitted. -/
theorem c2_rune_ranges :
    (∀ (c : Cfg) (st : PState) (b0 : Nat) (t : List Nat),
      0x20 ≤ b0 → b0 ≤ 0x7F →
      parseRune c st (b0 :: t) =
        ⟨true, true, 1,
          [Event.key TKey.keyRune b0 (if st.escaped then modNone ||| modAlt else modNone)],
          { st with escaped := false }⟩) ∧
    (∀ (c : Cfg) (st : PState) (b0 : Nat) (t : List Nat),
      b0 < 0x20 → parseRune c st (b0 :: t) = noMatch st) := by
  constructor
  · intro c st b0 t h1 h2
    obtain ⟨e, w, bd⟩ := st
    rw [parseRune_printable h1 h2]
    cases e <;> simp [latchMod]
  · intro c st b0 t h1
    exact parseRune_ctrl h1

theorem c2_rune_ranges_witness :
    parseRune cfgW pst0 [0x41] =
      ⟨true, true, 1, [Event.key TKey.keyRune 0x41 modNone], pst0⟩ ∧
    parseRune cfgW pst0 [0x07] = noMatch pst0 := by
  constructor
  · exact ((c2_rune_ranges).1 cfgW pst0 0x41 [] (by decide) (by decide)).trans (by decide)
  · exact (c2_rune_ranges).2 cfgW pst0 0x07 [] (by decide)

/-- C2, counterexample: the claim excludes `0x7F` from the printable
range and so predicts `(false, false)` with nothing consumed for a
buffer starting with `0x7F`; the source tests `b[0] <= 0x7F`, so
`parseRune` completes, consumes the byte and emits it as a rune. -/
theorem c2_counterexample :
    parseRune cfgW pst0 [0x7F] =
      ⟨true, true, 1, [Event.key TKey.keyRune 0x7F modNone], pst0⟩ ∧
    parseRune cfgW pst0 [0x7F] ≠ noMatch pst0 := by decide

/-! ## Claim C3 -/

/-- C3 (amended): `parseFunctionKey` iterates the key-code table skipping
the single-byte `0x1B` entry; it completes exactly when some non-skipped
entry is a leading segment of the buffer, and then consumes the matched
length and emits `Key{key, rune = first byte iff the entry length is 1,
mod | Alt iff the escaped latch is set}`, clearing the latch; when it
does not complete it reports partial exactly when the buffer is a
*proper* leading segment of some non-skipped entry (not, as the spec has
it, when an entry is a proper prefix of the buffer). -/
theorem c3_function_key :
    (∀ (c : Cfg) (st : PState) (b : List Nat),
      ((parseFunctionKey c st b).done = true ↔
        ∃ p ∈ c.entries, skipEsc p.1 = false ∧ hasPre b p.1 = true)) ∧
    (∀ (c : Cfg) (st : PState) (b : List Nat),
      (parseFunctionKey c st b).done = true →
      ∃ p ∈ c.entries, skipEsc p.1 = false ∧ hasPre b p.1 = true ∧
        parseFunctionKey c st b = ⟨true, true, p.1.length,
          [Event.key p.2.key (if p.1.length = 1 then b.headD 0 else 0)
            (if st.escaped then p.2.mod ||| modAlt else p.2.mod)],
          { st with escaped := false }⟩) ∧
    (∀ (c : Cfg) (st : PState) (b : List Nat),
      (parseFunctionKey c st b).done = false →
      ((parseFunctionKey c st b).more = true ↔
        ∃ p ∈ c.entries, skipEsc p.1 = false ∧ hasPre p.1 b = true ∧
          hasPre b p.1 = false)) ∧
    (∀ (c : Cfg) (st : PState) (b : List Nat),
      parseFunctionKey c st b =
        fkLoop st b (c.entries.filter fun e => !skipEsc e.1) false) := by
  refine ⟨?_, ?_, ?_, ?_⟩
  · intro c st b
    exact ⟨fun h => fk_done_exists c.entries false h,
      fun h => fk_exists_done c.entries false h⟩
  · intro c st b hd
    obtain ⟨p, hp, h2, h3, h4⟩ := fk_done_result c.entries false hd
    refine ⟨p, hp, h2, h3, ?_⟩
    rw [show parseFunctionKey c st b = fkLoop st b c.entries false from rfl, h4]
    obtain ⟨e, w, bd⟩ := st
    cases e <;> simp [latchMod]
  · intro c st b hd
    exact ⟨fun hm => fk_wait_exists c.entries hm hd,
      fun h => fk_more_of_wait c.entries false h⟩
  · intro c st b
    exact fk_filter c.entries false

theorem c3_function_key_witness :
    (parseFunctionKey cfgW pst0 [0x1B, 0x5B, 0x41]).done = true ∧
    (parseFunctionKey cfgW pst0 [0x1B, 0x5B]).more = true := by
  constructor
  · exact ((c3_function_key).1 cfgW pst0 [0x1B, 0x5B, 0x41]).mpr
      ⟨([0x1B, 0x5B, 0x41], ⟨TKey.keyUp, modNone⟩), by decide, by decide, by decide⟩
  · exact ((c3_function_key).2.2.1 cfgW pst0 [0x1B, 0x5B] (by decide)).mpr
      ⟨([0x1B, 0x5B, 0x41], ⟨TKey.keyUp, modNone⟩), by decide, by decide, by decide,
        by decide⟩

/-- C3, counterexample: in a table holding only the single-byte `0x1B`
entry, that entry is a proper prefix of the buffer `1B 41`, so the claim
predicts a partial report; the source skips the entry and returns
`(false, false)`. -/
theorem c3_counterexample :
    (([0x1B], (⟨TKey.keyEsc, modNone⟩ : KC)) ∈ cfg3.entries) ∧
    hasPre [0x1B, 0x41] [0x1B] = true ∧ ([0x1B] : List Nat) ≠ [0x1B, 0x41] ∧
    parseFunctionKey cfg3 pst0 [0x1B, 0x41] = noMatch pst0 := by decide

/-! ## Claim C7 -/

/-- C7 (amended): for a first byte `≥ 0x80`, `parseRune` feeds the
decoder successively longer prefixes; `ErrShortSrc` and empty output
continue with the next length; the first nonempty transform output
completes, consuming the decoder's consumed-source count, and emits
`Key{Rune, scalar, Alt if escaped}` only when the output's UTF-8
decoding is not `utf8.RuneError` — a transform decoding to `RuneError`
still completes and consumes, emitting nothing (the spec's "otherwise
partial" covers only the case where no prefix produces output). -/
theorem c7_decode_loop :
    (∀ (c : Cfg) (st : PState) (b0 : Nat) (t : List Nat) (l₀ nin : Nat)
        (out : List Nat),
      0x80 ≤ b0 → 1 ≤ l₀ → l₀ ≤ (b0 :: t).length →
      c.decoder ((b0 :: t).take l₀) = TRes.res out nin → out ≠ [] →
      (∀ j, 1 ≤ j → j < l₀ →
        c.decoder ((b0 :: t).take j) = TRes.shortSrc ∨
          ∃ n, c.decoder ((b0 :: t).take j) = TRes.res [] n) →
      parseRune c st (b0 :: t) =
        (if utf8DecodeRune out ≠ 0xFFFD then
          ⟨true, true, nin,
            [Event.key TKey.keyRune (utf8DecodeRune out)
              (if st.escaped then modNone ||| modAlt else modNone)],
            { st with escaped := false }⟩
        else ⟨true, true, nin, [], st⟩)) ∧
    (∀ (c : Cfg) (st : PState) (b0 : Nat) (t : List Nat),
      0x80 ≤ b0 →
      (∀ j, 1 ≤ j → j ≤ (b0 :: t).length →
        c.decoder ((b0 :: t).take j) = TRes.shortSrc ∨
          ∃ n, c.decoder ((b0 :: t).take j) = TRes.res [] n) →
      parseRune c st (b0 :: t) = ⟨true, false, 0, [], st⟩) := by
  constructor
  · intro c st b0 t l₀ nin out h80 h1 h2 hd hout hmin
    rw [parseRune_high h80]
    have hskip := @runeScan_skip c st (b0 :: t) (l₀ - 1) 1
      (fun j hj1 hj2 => ⟨by omega, hmin j hj1 (by omega)⟩)
    rw [show 1 + (l₀ - 1) = l₀ by omega] at hskip
    rw [hskip, runeScan_eq_hit (by omega) hd hout]
    obtain ⟨e, w, bd⟩ := st
    cases e <;> split_ifs <;> simp_all [latchMod]
  · intro c st b0 t h80 hall
    rw [parseRune_high h80]
    have hskip := @runeScan_skip c st (b0 :: t)
      ((b0 :: t).length) 1
      (fun j hj1 hj2 => ⟨by omega, hall j hj1 (by omega)⟩)
    rw [hskip, runeScan_eq_stop (by omega)]

theorem c7_decode_loop_witness :
    parseRune cfg7b pst0 [0xC3, 0xA9] =
      ⟨true, true, 2, [Event.key TKey.keyRune 0xE9 modNone], pst0⟩ := by
  have h := (c7_decode_loop).1 cfg7b pst0 0xC3 [0xA9] 2 2 [0xC3, 0xA9]
    (by decide) (by decide) (by decide) (by decide) (by decide)
    (by intro j h1 h2
        have hj : j = 1 := by omega
        rw [hj]
        exact Or.inl rfl)
  exact h.trans (by decide)

/-- C7, counterexample: with a decoder that replaces an undecodable byte
by `U+FFFD` and consumes it (the replacement behaviour of the
`golang.org/x/text` decoders), a buffer `[0x80]` is *complete*: the byte
is consumed with no event emitted, while the claim's "otherwise partial"
predicts a partial report with nothing consumed. -/
theorem c7_counterexample :
    parseRune cfg7 pst0 [0x80] = ⟨true, true, 1, [], pst0⟩ ∧
    parseRune cfg7 pst0 [0x80] ≠ ⟨true, false, 0, [], pst0⟩ := by
  have h : parseRune cfg7 pst0 [0x80] = ⟨true, true, 1, [], pst0⟩ := by
    rw [parseRune_high (by decide)]
    rw [runeScan_eq_hit (by decide) rfl (by decide)]
    rw [if_neg (by decide)]
  exact ⟨h, by rw [h]; decide⟩

/-! ## Claim C4 -/

/-- C4 (amended): when no matcher completed and no matcher is partial (or
expiration fired), a buffer holding only `0x1B` emits `Key{Esc, 0, None}`
and consumes it, and a buffer starting with `0x1B` followed by more
bytes sets the `escaped` latch consuming only the ESC; while the latch is
set, a rune actually emitted by `parseRune` and a completed
`parseFunctionKey` match carry the Alt modifier and clear the latch.
(The latch does not guarantee Alt on the *next* event unconditionally:
the fallback ESC path emits `Key{Esc, 0, None}` regardless.) -/
theorem c4_escape_latch :
    (∀ (c : Cfg) (st : PState) (e : Bool),
      (∀ en ∈ c.entries, en.1 ≠ []) →
      (pcount c st [0x1B] = 0 ∨ e = true) →
      scanStep c st [0x1B] e =
        StepRes.emit [Event.key TKey.keyEsc 0 modNone] 1 { st with escaped := false }) ∧
    (∀ (c : Cfg) (st : PState) (e : Bool) (rest : List Nat), rest ≠ [] →
      (parseRune c st (0x1B :: rest)).done = false →
      (parseFunctionKey c st (0x1B :: rest)).done = false →
      (mouseXt c st (0x1B :: rest)).done = false →
      (mouseSgr c st (0x1B :: rest)).done = false →
      (pcount c st (0x1B :: rest) = 0 ∨ e = true) →
      scanStep c st (0x1B :: rest) e = StepRes.emit [] 1 { st with escaped := true }) ∧
    (∀ (c : Cfg) (st : PState) (b : List Nat), st.escaped = true →
      (parseRune c st b).evs ≠ [] →
      ∃ r n, parseRune c st b =
        ⟨true, true, n, [Event.key TKey.keyRune r (modNone ||| modAlt)],
          { st with escaped := false }⟩) ∧
    (∀ (c : Cfg) (st : PState) (b : List Nat), st.escaped = true →
      (parseFunctionKey c st b).done = true →
      ∃ p ∈ c.entries, parseFunctionKey c st b =
        ⟨true, true, p.1.length,
          [Event.key p.2.key (if p.1.length = 1 then b.headD 0 else 0)
            (p.2.mod ||| modAlt)], { st with escaped := false }⟩) := by
  refine ⟨?_, ?_, ?_, ?_⟩
  · intro c st e hne hps
    have h1 : (parseRune c st [0x1B]).done = false := by
      rw [parseRune_ctrl (by norm_num)]; rfl
    have h2 : (parseFunctionKey c st [0x1B]).done = false := fk_esc_one hne
    have h3 : (mouseXt c st [0x1B]).done = false := by
      cases hd : (mouseXt c st [0x1B]).done
      · rfl
      · have := mouseXt_len hd; simp at this
    have h4 : (mouseSgr c st [0x1B]).done = false := by
      cases hd : (mouseSgr c st [0x1B]).done
      · rfl
      · have := mouseSgr_len hd; simp at this
    rw [scanStep_fb h1 h2 h3 h4 hps]
    norm_num
  · intro c st e rest hrest h1 h2 h3 h4 hps
    rw [scanStep_fb h1 h2 h3 h4 hps, if_pos rfl, if_neg hrest]
  · intro c st b hesc hevs
    exact parseRune_alt hesc hevs
  · intro c st b hesc hd
    obtain ⟨p, hp, h2, h3, h4⟩ := fk_done_result c.entries false hd
    refine ⟨p, hp, ?_⟩
    rw [show parseFunctionKey c st b = fkLoop st b c.entries false from rfl, h4]
    simp [latchMod, hesc]

theorem c4_escape_latch_witness :
    scanStep cfgW pst0 [0x1B] true =
      StepRes.emit [Event.key TKey.keyEsc 0 modNone] 1 { pst0 with escaped := false } :=
  (c4_escape_latch).1 cfgW pst0 true (by decide) (Or.inr rfl)

/-- C4, counterexample: on the bytes `1B 1B` with expiration, the first
iteration sets the `escaped` latch, yet the next (and only) emitted key
event is `Key{Esc, 0, None}` — its modifier does not include Alt — so
"the next emitted key or rune event then carries the Alt modifier" fails. -/
theorem c4_counterexample :
    scanStep cfgW pst0 [0x1B, 0x1B] true = StepRes.emit [] 1 ⟨true, false, false⟩ ∧
    deliver cfgW pst0 [[0x1B, 0x1B]] = [Event.key TKey.keyEsc 0 modNone] ∧
    modNone &&& modAlt = 0 := by decide

/-! ## Claim C8 -/

/-- C8 (amended): `Fini` restores the terminal first — resizing the cell
buffer away and emitting show-cursor, attribute-off, clear, exit-CA,
exit-keypad and mouse-off — and only then closes the quit channel (the
input task's stop signal), then the output stream, then the input
stream; it also marks the screen finished. -/
theorem c8_fini_order (q : QState) (h : q.quitNil = false) :
    (Fini q).2 =
      [FAct.resizeCells 0 0, FAct.puts Cap.showCursor, FAct.puts Cap.attrOff,
        FAct.puts Cap.clearScr, FAct.puts Cap.exitCA, FAct.puts Cap.exitKeypad,
        FAct.puts Cap.mouseModeOff] ++ [FAct.closeQuit, FAct.closeOut, FAct.closeIn] ∧
    (Fini q).1.fini = true := by
  simp [Fini, h]

theorem c8_fini_order_witness :
    (Fini qInit).2 =
      [FAct.resizeCells 0 0, FAct.puts Cap.showCursor, FAct.puts Cap.attrOff,
        FAct.puts Cap.clearScr, FAct.puts Cap.exitCA, FAct.puts Cap.exitKeypad,
        FAct.puts Cap.mouseModeOff] ++ [FAct.closeQuit, FAct.closeOut, FAct.closeIn] ∧
    (Fini qInit).1.fini = true :=
  c8_fini_order qInit rfl

/-- C8, counterexample: in the teardown trace of an initialized screen
the show-cursor restore capability is emitted strictly before the quit
channel is closed, so "first signal the input task to stop, then restore
the terminal" does not hold. -/
theorem c8_counterexample :
    FAct.closeQuit ∈ (Fini qInit).2 ∧
    FAct.puts Cap.showCursor ∈ (Fini qInit).2 ∧
    ¬ (Fini qInit).2.indexOf FAct.closeQuit <
        (Fini qInit).2.indexOf (FAct.puts Cap.showCursor) := by decide

/-! ## Claim C9 -/

/-- C9 (amended): after `Fini`, `SetContent`, `Fill`, `SetStyle`, `Show`
and `Sync` leave the screen state unchanged (`Sync` still resets its
tracked output cursor, which sits before the guard), and the quit-closed
branch of `PollEvent` can return the nil sentinel; but `ShowCursor` has
no guard and still stores the cursor position, and `PollEvent` may also
return a still-queued event instead of the sentinel. -/
theorem c9_post_fini :
    (∀ (q : QState) (x y : Int) (mainc : Nat) (style : Int),
      q.fini = true → SetContent q x y mainc style = q) ∧
    (∀ (q : QState) (mainc : Nat) (style : Int),
      q.fini = true → Fill q mainc style = q) ∧
    (∀ (q : QState) (style : Int), q.fini = true → SetStyle q style = q) ∧
    (∀ (draw : QState → QState × List FAct) (q : QState),
      q.fini = true → Show draw q = (q, [])) ∧
    (∀ (draw : QState → QState × List FAct) (q : QState),
      q.fini = true → Sync draw q = ({ q with cx := -1, cy := -1 }, [])) ∧
    (∀ (q : QState) (x y : Int),
      ShowCursor q x y = { q with cursorx := x, cursory := y }) ∧
    (∀ queue : List Event, pollPossible true queue none) ∧
    (∀ (ev : Event) (rest : List Event), pollPossible true (ev :: rest) (some ev)) := by
  refine ⟨?_, ?_, ?_, ?_, ?_, ?_, ?_, ?_⟩
  · intro q x y mainc style h; simp [SetContent, h]
  · intro q mainc style h; simp [Fill, h]
  · intro q style h; simp [SetStyle, h]
  · intro q draw h; simp [Show, h]
  · intro q draw h; simp [Sync, h]
  · intro q x y; rfl
  · intro queue; exact Or.inl ⟨rfl, rfl⟩
  · intro ev rest; exact Or.inr ⟨ev, rest, rfl, rfl⟩

theorem c9_post_fini_witness :
    SetContent qFini 1 1 65 0 = qFini ∧
    ShowCursor qFini 3 4 = { qFini with cursorx := 3, cursory := 4 } ∧
    pollPossible true [] none :=
  ⟨(c9_post_fini).1 qFini 1 1 65 0 rfl,
    (c9_post_fini).2.2.2.2.2.1 qFini 3 4,
    (c9_post_fini).2.2.2.2.2.2.1 []⟩

/-- C9, counterexample: `ShowCursor` carries no `fini` guard in the
source, so it mutates the state of a finished screen — "every
state-mutating operation of the facade ... is a no-op" fails. -/
theorem c9_counterexample :
    ShowCursor qFini 3 4 ≠ qFini ∧ qFini.fini = true := by decide

/-! ## Claim C1, witness -/

theorem c1_split_invariance_witness :
    deliver cfgW pst0 [[0x1B, 0x5B, 0x41, 0x68]] =
      deliver cfgW pst0 [[0x1B, 0x5B], [0x41, 0x68]] :=
  c1_split_invariance cfgW_wf pst0 [0x1B, 0x5B, 0x41, 0x68] 2
